import Mathlib

/-!
Verification of the FlexGet metadata-matching core and execution-log API.

The definitions below are a shallow embedding of:
  * `flexget/components/imdb/utils.py` — `extract_id`, `make_url`, and the
    scoring / best-match logic of `ImdbSearch` (`search`, `best_match`),
    including the parts of Python's `difflib.SequenceMatcher` (stdlib) that
    `ImdbSearch.search` calls: `find_longest_match`, `get_matching_blocks`
    and `ratio`, with the junk predicate `lambda x: x == ' '` and autojunk.
  * `flexget/api.py` — the `follow` generator of `ExecutionTaskLogAPI.get`.

Strings are embedded as `List Char`; Python floats are embedded as exact
rationals (`Rat`); fallible steps return `Option`.
-/

abbrev Str := List Char

/-- The junk predicate passed to `SequenceMatcher` in `ImdbSearch.search`:
`lambda x: x == ' '`. -/
def isjunk (c : Char) : Bool := c = ' '

/-- Indexing into the first sequence `a` (in-range at every use site;
the default is distinct from `getB`'s so out-of-range reads never compare equal). -/
def getA (a : Str) (i : Nat) : Char := a.getD i '\x00'

/-- Indexing into the second sequence `b`. -/
def getB (b : Str) (j : Nat) : Char := b.getD j '\x01'

/-- `SequenceMatcher.__chain_b`: `b2j[c]` is the ascending list of indices of
`c` in `b`, with junk characters purged, and (autojunk) with characters
occurring more than `len(b)//100 + 1` times purged when `len(b) >= 200`. -/
def b2j (b : Str) (c : Char) : List Nat :=
  if isjunk c then []
  else
    let idxs := (List.range b.length).filter (fun j => getB b j = c)
    if 200 ≤ b.length ∧ b.length / 100 + 1 < idxs.length then [] else idxs

structure FLMatch where
  i : Nat
  j : Nat
  size : Nat
deriving DecidableEq, Repr

/-- Inner loop of `find_longest_match`: walk the (ascending) occurrence list
of `a[i]` in `b`, maintaining `newj2len` (`acc`) and the best match so far.
`continue` on `j < blo`, `break` on `j >= bhi`;
`k = newj2len[j] = j2len.get(j-1, 0) + 1` (the `j = 0` case reads the
dictionary at key `-1`, which is absent, hence `0`). -/
def flmInner (blo bhi i : Nat) (j2len : Nat → Nat) :
    List Nat → (Nat → Nat) → FLMatch → (Nat → Nat) × FLMatch
  | [], acc, best => (acc, best)
  | j :: js, acc, best =>
    if j < blo then flmInner blo bhi i j2len js acc best
    else if bhi ≤ j then (acc, best)
    else
      let k := (if j = 0 then 0 else j2len (j - 1)) + 1
      let acc' := fun x => if x = j then k else acc x
      let best' : FLMatch := if best.size < k then ⟨i + 1 - k, j + 1 - k, k⟩ else best
      flmInner blo bhi i j2len js acc' best'

/-- Outer loop of `find_longest_match` over the rows `i ∈ range(alo, ahi)`;
each row starts from a fresh empty `newj2len` and installs it as `j2len`
for the next row. -/
def flmRows (a b : Str) (blo bhi : Nat) :
    List Nat → (Nat → Nat) → FLMatch → FLMatch
  | [], _, best => best
  | i :: is, j2len, best =>
    let js := match a.get? i with
      | some c => b2j b c
      | none => []
    let r := flmInner blo bhi i j2len js (fun _ => 0) best
    flmRows a b blo bhi is r.1 r.2

/-- The two leftward extension `while` loops of `find_longest_match`:
`junkPhase = false` is the non-junk extension, `junkPhase = true` the junk
extension.  Each iteration decrements `m.i`, so `fuel` (passed as the
initial `m.i`) dominates the iteration count, and the value equals that of
the `while` loop. -/
def extendL (junkPhase : Bool) (a b : Str) (alo blo : Nat) : Nat → FLMatch → FLMatch
  | 0, m => m
  | fuel + 1, m =>
    if alo < m.i ∧ blo < m.j ∧ isjunk (getB b (m.j - 1)) = junkPhase ∧
        getA a (m.i - 1) = getB b (m.j - 1) then
      extendL junkPhase a b alo blo fuel ⟨m.i - 1, m.j - 1, m.size + 1⟩
    else m

/-- The two rightward extension `while` loops of `find_longest_match`.
Each iteration increments `m.size` while `m.i + m.size < ahi`, so `fuel`
(passed as `ahi - m.size`) dominates the iteration count. -/
def extendR (junkPhase : Bool) (a b : Str) (ahi bhi : Nat) : Nat → FLMatch → FLMatch
  | 0, m => m
  | fuel + 1, m =>
    if m.i + m.size < ahi ∧ m.j + m.size < bhi ∧
        isjunk (getB b (m.j + m.size)) = junkPhase ∧
        getA a (m.i + m.size) = getB b (m.j + m.size) then
      extendR junkPhase a b ahi bhi fuel ⟨m.i, m.j, m.size + 1⟩
    else m

/-- `SequenceMatcher.find_longest_match(alo, ahi, blo, bhi)`: the dp loop,
then the four extension loops (non-junk left, non-junk right, junk left,
junk right). -/
def findLongestMatch (a b : Str) (alo ahi blo bhi : Nat) : FLMatch :=
  let b0 := flmRows a b blo bhi (List.range' alo (ahi - alo)) (fun _ => 0) ⟨alo, blo, 0⟩
  let m1 := extendL false a b alo blo b0.i b0
  let m2 := extendR false a b ahi bhi (ahi - m1.size) m1
  let m3 := extendL true a b alo blo m2.i m2
  let m4 := extendR true a b ahi bhi (ahi - m3.size) m3
  m4

/-- Total size of the matching blocks found by the divide-and-conquer of
`get_matching_blocks` on the subproblem `(alo, ahi, blo, bhi)` (the final
sort-and-merge step of `get_matching_blocks` does not change the sum, which
is all `ratio` uses).  The queue discipline is rendered as recursion; `fuel`
dominates the recursion depth. -/
def mbSum (a b : Str) : Nat → Nat → Nat → Nat → Nat → Nat
  | 0, _, _, _, _ => 0
  | fuel + 1, alo, ahi, blo, bhi =>
    let m := findLongestMatch a b alo ahi blo bhi
    if m.size = 0 then 0
    else
      m.size
        + (if alo < m.i ∧ blo < m.j then mbSum a b fuel alo m.i blo m.j else 0)
        + (if m.i + m.size < ahi ∧ m.j + m.size < bhi then
            mbSum a b fuel (m.i + m.size) ahi (m.j + m.size) bhi else 0)

/-- `matches = sum(triple[-1] for triple in self.get_matching_blocks())`. -/
def matchesTotal (a b : Str) : Nat := mbSum a b (a.length + b.length + 1) 0 a.length 0 b.length

/-- `SequenceMatcher.ratio()` = `_calculate_ratio(matches, len(a) + len(b))`:
`2.0 * matches / length` when the total length is nonzero, else `1.0`. -/
def ratioOf (a b : Str) : Rat :=
  if a.length + b.length ≠ 0 then
    (2 * (matchesTotal a b : Rat)) / ((a.length : Rat) + (b.length : Rat))
  else 1

/-- The occurrence list scanned by a row `i` of the `find_longest_match` dp
loop: `b2j.get(a[i], nothing)`. -/
def rowJs (a b : Str) (i : Nat) : List Nat :=
  match a.get? i with
  | some c => b2j b c
  | none => []

/-- Specification of the dp dictionary of `find_longest_match`:
`dpK a b alo blo bhi i j` is the value `newj2len[j]` takes while row `i` is
processed (`0` where the key is absent) — the length of the junk-free match
ending with `a[i]` and `b[j]` inside the window. -/
def dpK (a b : Str) (alo blo bhi : Nat) : Nat → Nat → Nat
  | i, j =>
    if j ∈ rowJs a b i ∧ blo ≤ j ∧ j < bhi ∧ alo ≤ i then
      (if alo < i ∧ 0 < j then dpK a b alo blo bhi (i - 1) (j - 1) else 0) + 1
    else 0
termination_by i _ => i
decreasing_by
  omega

/-! ## `flexget/components/imdb/utils.py` -/

/-- `extract_id`'s regex `(?:nm|tt)\d{7,8}` tried at one position: the two
prefix letters, then greedily 8 (else 7) digits. -/
def matchIdAt : Str → Option Str
  | c1 :: c2 :: rest =>
    if (c1 = 'n' ∧ c2 = 'm') ∨ (c1 = 't' ∧ c2 = 't') then
      let ds := (rest.takeWhile Char.isDigit).take 8
      if 7 ≤ ds.length then some (c1 :: c2 :: ds) else none
    else none
  | _ => none

/-- `extract_id(url)`: `re.search(r'((?:nm|tt)\d{7,8})', url)` — the leftmost
match wins. -/
def extract_id : Str → Option Str
  | [] => none
  | c :: rest =>
    match matchIdAt (c :: rest) with
    | some r => some r
    | none => extract_id rest

/-- `make_url(imdb_id)` = `'https://www.imdb.com/title/%s/' % imdb_id`. -/
def make_url (imdb_id : Str) : Str :=
  "https://www.imdb.com/title/".toList ++ imdb_id ++ "/".toList

/-- `'%s' % x` for the optional id stored in the movie dict (`None` prints
as `None`). -/
def makeUrlOpt : Option Str → Str
  | some i => make_url i
  | none => make_url "None".toList

/-- The tunable weights of `ImdbSearch.__init__`, at their defaults. -/
def aka_weight : Rat := 95 / 100
def first_weight : Rat := 11 / 10
def min_match : Rat := 7 / 10
def min_diff : Rat := 1 / 100
def max_results : Nat := 50

/-- Python `str.title()` (ASCII): a cased character is uppercased when the
previous character is not cased, lowercased otherwise. -/
def titleChar (prevCased : Bool) (c : Char) : Char :=
  if c.isAlpha then (if prevCased then c.toLower else c.toUpper) else c

def titleAux : Bool → Str → Str
  | _, [] => []
  | prev, c :: cs => titleChar prev c :: titleAux c.isAlpha cs

def title (s : Str) : Str := titleAux false s

/-- Python `str.lower()` (ASCII). -/
def lower (s : Str) : Str := s.map Char.toLower

/-- The aka loop of `ImdbSearch.search`: each alternate name is compared
against the current ratio; on improvement the ratio becomes
`aka_ratio * aka_weight`. -/
def applyAkas (query : Str) : Rat → List Str → Rat
  | r, [] => r
  | r, aka :: akas =>
    let akaR := ratioOf (title aka) (title query)
    applyAkas query (if r < akaR then akaR * aka_weight else r) akas

/-- `re.search(r'".*"', aka)` followed by `.replace('"', '')`: the span from
the first to the last double quote, with every quote removed; `None` when
the regex does not match (fewer than two quotes). -/
def extractAka (s : Str) : Option Str :=
  let f := (s.takeWhile (fun c => c ≠ '"')).length
  let g := (s.reverse.takeWhile (fun c => c ≠ '"')).length
  if f + g + 1 < s.length then
    some (((s.drop f).take (s.length - g - f)).filter (fun c => c ≠ '"'))
  else none

/-- `re.findall(r'\((.*?)\)', text)`: non-overlapping lazy matches — each
`(` opens a group closed by the nearest `)`. -/
def findParensAux : Option Str → Str → List Str
  | none, [] => []
  | none, c :: rest =>
    if c = '(' then findParensAux (some []) rest else findParensAux none rest
  | some _, [] => []
  | some acc, c :: rest =>
    if c = ')' then acc.reverse :: findParensAux none rest
    else findParensAux (some (c :: acc)) rest

def findParens (s : Str) : List Str := findParensAux none s

/-- Modelled from the spec: `flexget.utils.tools.str_to_int` is imported
from outside the embedded sources; the spec treats the year fields it feeds
as plain optional integers, so it is modelled as decimal parsing (with the
thousands separator `,` stripped), returning `none` on non-numeric input.
Every call site in the embedded code passes a string of exactly four
digits, for which this is ordinary integer conversion. -/
def strToInt (s : Str) : Option Int :=
  let t := s.filter (fun c => c ≠ ',')
  if t ≠ [] ∧ t.all Char.isDigit then
    some (t.foldl (fun n c => 10 * n + ((c.toNat : Int) - 48)) 0)
  else none

/-- `position_ratio = (self.first_weight - 1) / (count + 1) + 1`
(named `position_ratio` in the source). -/
def posWeight (count : Nat) : Rat := (first_weight - 1) / ((count : Rat) + 1) + 1

/-- One raw result row of the search page, as handed over by the excluded
HTML layer: the `result_text` cell text, the thumbnail `src`, the link text
and href, and the texts of the `<i>` (aka) elements. -/
structure Row where
  result_text : Str
  thumbnail : Str
  link_text : Str
  link_href : Str
  akas : List Str
deriving DecidableEq, Repr

/-- One movie dict produced by `ImdbSearch.search` (`match` is `matchVal`;
`match` is a reserved word in Lean). -/
structure Movie where
  name : Str
  year : Option Int
  matchVal : Rat
  url : Str
  imdb_id : Option Str
  thumbnail : Option Str
deriving DecidableEq, Repr

def defMovie : Movie := ⟨[], none, 0, [], none, none⟩

instance : Inhabited Movie := ⟨defMovie⟩

/-- The similarity ratio of one row before positional weighting: the base
`SequenceMatcher` ratio of the titled names, then the aka loop (invalid
akas — no quoted part — are skipped with `continue`). -/
def rowScore0 (name : Str) (row : Row) : Rat :=
  applyAkas name (ratioOf (title row.link_text) (title name))
    (row.akas.filterMap extractAka)

/-- The year parsing of one row (lines parsing `additional`): returns the
year (if any) and whether the row is skipped (`continue`). -/
def rowYear (additional : List Str) : Option Int × Bool :=
  match additional.getLast? with
  | none => (none, false)
  | some last =>
    if last.length = 4 ∧ last.all Char.isDigit then (strToInt last, false)
    else if 1 < additional.length then
      (strToInt (additional.getD (additional.length - 2) []),
        last ≠ "TV Movie".toList ∧ last ≠ "Video".toList)
    else (none, false)

/-- The body of the row loop of `ImdbSearch.search` for the row at position
`count`: `none` when the row is skipped. -/
def processRow (name : Str) (count : Nat) (row : Row) : Option Movie :=
  let additional := findParens row.result_text
  let (year, skip) := rowYear additional
  if skip then none
  else
    let imdb_id := extract_id row.link_href
    some
      { name := row.link_text
        year := year
        matchVal := rowScore0 name row * posWeight count
        url := makeUrlOpt imdb_id
        imdb_id := imdb_id
        thumbnail := some row.thumbnail }

/-- The row loop of `ImdbSearch.search`: `enumerate(rows)` with
`if count > self.max_results: break`. -/
def searchLoop (name : Str) : Nat → List Row → List Movie
  | _, [] => []
  | count, row :: rest =>
    if max_results < count then []
    else
      match processRow name count row with
      | some movie => movie :: searchLoop name (count + 1) rest
      | none => searchLoop name (count + 1) rest

/-- `ImdbSearch.search` from the parsed result rows onward: process the rows,
then `movies.sort(key=lambda x: x['match'], reverse=True)` (a stable
descending sort). -/
def search_rows (name : Str) (rows : List Row) : List Movie :=
  (searchLoop name 0 rows).mergeSort (fun x y => decide (y.matchVal ≤ x.matchVal))

/-! ## `ImdbSearch.best_match` -/

inductive BMResult
  | noMatch
  | single (m : Movie)
  | multiple (ms : List Movie)
deriving DecidableEq, Repr

/-- Python truthiness of the optional year ints (`if year and ...`). -/
def truthy : Option Int → Bool
  | none => false
  | some y => y ≠ 0

/-- A movie removed by the year filter of `best_match`. -/
def wrongYear (year : Option Int) (m : Movie) : Bool :=
  truthy year && truthy m.year && !(m.year == year)

/-- The exact-match test of `best_match`:
`movie['year'] == year and movie['name'].lower() == name.lower()`
(only reached when both years are truthy). -/
def isExact (name : Str) (year : Option Int) (m : Movie) : Bool :=
  truthy year && truthy m.year && (m.year == year) && (lower m.name == lower name)

/-- A movie surviving both removal passes of `best_match`'s loop
(wrong year, then `movie['match'] < self.min_match`). -/
def keepMovie (year : Option Int) (m : Movie) : Bool :=
  !wrongYear year m && !decide (m.matchVal < min_match)

/-- `ImdbSearch.best_match(name, year, single_match)` given the movie list
returned by `search` (the loop iterates over a copy while removing from the
list, which is removal-by-filter; `exact` is collected before the
`min_match` removal). -/
def best_match (name : Str) (year : Option Int) (movies : List Movie)
    (single_match : Bool) : BMResult :=
  if movies.isEmpty then .noMatch
  else
    let exact := movies.filter (isExact name year)
    let remaining := movies.filter (keepMovie year)
    if remaining.isEmpty then .noMatch
    else if exact.length = 1 then .single (exact.headD defMovie)
    else if remaining.length = 1 then .single (remaining.headD defMovie)
    else
      let diff := (remaining.getD 0 defMovie).matchVal - (remaining.getD 1 defMovie).matchVal
      if diff < min_diff then .noMatch
      else if single_match then .single (remaining.getD 0 defMovie)
      else .multiple remaining

/-! ## `flexget/api.py` — `ExecutionTaskLogAPI.get`'s `follow` generator -/

/-- One line of the json log file: its parsed `task_id` tag and the raw
line text that the generator yields. -/
structure LogLine where
  task_id : String
  raw : String
deriving DecidableEq, Repr

/-- The `follow` generator: loop forever — busy-continue until the task has
started; snapshot `finished`; read a line; on no line return if finished,
else sleep and retry; on a line, skip it unless its `task_id` equals the
requested id, else yield it.  `fuel` bounds the number of iterations;
`none` models non-termination within the allotted fuel. -/
def follow (exec_id : String) (started finished : Bool) :
    Nat → List LogLine → Option (List LogLine)
  | 0, _ => none
  | fuel + 1, lines =>
    if !started then follow exec_id started finished fuel lines
    else
      match lines with
      | [] => if finished then some [] else follow exec_id started finished fuel []
      | l :: rest =>
        if l.task_id = exec_id then
          (follow exec_id started finished fuel rest).map (l :: ·)
        else follow exec_id started finished fuel rest

/-- A concrete search-result row whose link text equals the query `"Up"`
(position 0, no alternate names). -/
def c5row : Row :=
  { result_text := "Up (2009)".toList
    thumbnail := "thumb.jpg".toList
    link_text := "Up".toList
    link_href := "/title/tt1049413/".toList
    akas := [] }

/-- The movie dict that the row loop of `ImdbSearch.search` builds from
`c5row` at position 0. -/
def c5movie : Movie :=
  { name := "Up".toList
    year := strToInt "2009".toList
    matchVal := rowScore0 "Up".toList c5row * posWeight 0
    url := makeUrlOpt (extract_id "/title/tt1049413/".toList)
    imdb_id := extract_id "/title/tt1049413/".toList
    thumbnail := some "thumb.jpg".toList }

/-! ## Log streaming (C9) -/

theorem follow_yields_tagged (exec_id : String) :
    ∀ (fuel : Nat) (st fin : Bool) (lines out : List LogLine),
      follow exec_id st fin fuel lines = some out → ∀ l ∈ out, l.task_id = exec_id := by
  intro fuel
  induction fuel with
  | zero => intro st fin lines out h; simp [follow] at h
  | succ fuel ih =>
    intro st fin lines out h l hl
    simp only [follow] at h
    cases st with
    | false => exact ih false fin lines out (by simpa using h) l hl
    | true =>
      cases lines with
      | nil =>
        cases fin with
        | true =>
          simp at h
          subst h
          simp at hl
        | false => exact ih true false [] out (by simpa using h) l hl
      | cons x rest =>
        simp only [Bool.not_true, Bool.false_eq_true, if_false] at h
        by_cases hx : x.task_id = exec_id
        · simp [hx] at h
          obtain ⟨o', ho', rfl⟩ := h
          rcases List.mem_cons.mp hl with rfl | hl'
          · exact hx
          · exact ih true fin rest o' ho' l hl'
        · simp [hx] at h
          exact ih true fin rest out h l hl

theorem follow_finished_eq (exec_id : String) :
    ∀ (fuel : Nat) (lines : List LogLine), lines.length < fuel →
      follow exec_id true true fuel lines
        = some (lines.filter (fun l => l.task_id == exec_id)) := by
  intro fuel
  induction fuel with
  | zero => intro lines h; omega
  | succ fuel ih =>
    intro lines h
    simp only [follow]
    cases lines with
    | nil => simp
    | cons x rest =>
      have hr : rest.length < fuel := by simpa using h
      by_cases hx : x.task_id = exec_id
      · simp [hx, ih rest hr]
      · simp [hx, ih rest hr]

/-- C9: for every execution id, the log stream (`follow` generator of
`ExecutionTaskLogAPI.get`) never yields a log line whose execution-id tag
differs from the requested id — non-matching lines are skipped — and once
the execution is finished and a read returns no further line the stream
terminates, having yielded exactly the lines tagged with the requested id. -/
theorem log_stream_spec (exec_id : String) (lines : List LogLine) :
    (∀ (st fin : Bool) (fuel : Nat) (out : List LogLine),
        follow exec_id st fin fuel lines = some out → ∀ l ∈ out, l.task_id = exec_id) ∧
    (∀ fuel : Nat, lines.length < fuel →
        follow exec_id true true fuel lines
          = some (lines.filter (fun l => l.task_id == exec_id))) :=
  ⟨fun st fin fuel out h => follow_yields_tagged exec_id fuel st fin lines out h,
   fun fuel h => follow_finished_eq exec_id fuel lines h⟩

theorem log_stream_spec_witness :
    follow "e1" true true 3 [⟨"e1", "a"⟩, ⟨"e2", "b"⟩] = some [⟨"e1", "a"⟩] := by
  have h := (log_stream_spec "e1" [⟨"e1", "a"⟩, ⟨"e2", "b"⟩]).2 3 (by decide)
  simpa using h

/-! ## `extract_id` / `make_url` round trip (C10) -/

/-- C10: for every id of the form `tt` followed by 7 or 8 decimal digits,
`extract_id (make_url id) = id` — `make_url` embeds the id in an imdb.com
title URL and `extract_id`'s leftmost regex match recovers exactly it. -/
theorem extract_id_make_url_roundtrip (ds : Str)
    (hlen : ds.length = 7 ∨ ds.length = 8)
    (hds : ∀ c ∈ ds, c.isDigit = true) :
    extract_id (make_url ('t' :: 't' :: ds)) = some ('t' :: 't' :: ds) := by
  have hpre : "https://www.imdb.com/title/".toList
      = ['h','t','t','p','s',':','/','/','w','w','w','.','i','m','d','b','.','c','o','m','/','t','i','t','l','e','/'] := rfl
  rcases ds with _ | ⟨d1, _ | ⟨d2, _ | ⟨d3, _ | ⟨d4, _ | ⟨d5, _ | ⟨d6, _ | ⟨d7, _ | ⟨d8, _ | ⟨d9, tl⟩⟩⟩⟩⟩⟩⟩⟩⟩
  · simp at hlen
  · simp at hlen
  · simp at hlen
  · simp at hlen
  · simp at hlen
  · simp at hlen
  · simp at hlen
  · have h1 := hds d1 (by simp); have h2 := hds d2 (by simp)
    have h3 := hds d3 (by simp); have h4 := hds d4 (by simp)
    have h5 := hds d5 (by simp); have h6 := hds d6 (by simp)
    have h7 := hds d7 (by simp)
    simp [make_url, hpre, extract_id, matchIdAt, List.takeWhile, h1, h2, h3, h4, h5, h6, h7]
  · have h1 := hds d1 (by simp); have h2 := hds d2 (by simp)
    have h3 := hds d3 (by simp); have h4 := hds d4 (by simp)
    have h5 := hds d5 (by simp); have h6 := hds d6 (by simp)
    have h7 := hds d7 (by simp); have h8 := hds d8 (by simp)
    simp [make_url, hpre, extract_id, matchIdAt, List.takeWhile, h1, h2, h3, h4, h5, h6, h7, h8]
  · simp at hlen

theorem extract_id_make_url_roundtrip_witness :
    extract_id (make_url "tt0133093".toList) = some "tt0133093".toList := by
  have h := extract_id_make_url_roundtrip "0133093".toList (by simp) (by decide)
  simpa using h

/-! ## Positional weighting (C6) -/

/-- C6: the positional weight of the scorer at position `p` is
`(first_weight - 1) / (p + 1) + 1` (`first_weight` default `1.1`), the
stored score of every processed row is the aka-adjusted ratio times this
weight, and the weight is strictly greater than `1` and strictly decreasing
in `p` (decaying toward `1`, never at or below it). -/
theorem position_weight_spec :
    (∀ p : Nat, posWeight p = (first_weight - 1) / ((p : Rat) + 1) + 1) ∧
    (∀ (name : Str) (count : Nat) (row : Row) (movie : Movie),
        processRow name count row = some movie →
        movie.matchVal = rowScore0 name row * posWeight count) ∧
    (∀ p : Nat, 1 < posWeight p) ∧
    (∀ p q : Nat, p < q → posWeight q < posWeight p) := by
  refine ⟨fun p => rfl, ?_, ?_, ?_⟩
  · intro name count row movie h
    simp only [processRow] at h
    rcases hry : rowYear (findParens row.result_text) with ⟨year, skip⟩
    rw [hry] at h
    by_cases hs : skip = true
    · rw [if_pos hs] at h
      exact absurd h (by simp)
    · rw [if_neg hs] at h
      simp only [Option.some.injEq] at h
      subst h
      rfl
  · intro p
    have hpos : (0 : Rat) < (p : Rat) + 1 := by positivity
    have : (0 : Rat) < (first_weight - 1) / ((p : Rat) + 1) := by
      apply div_pos _ hpos
      norm_num [first_weight]
    unfold posWeight
    linarith
  · intro p q hpq
    have hp : (0 : Rat) < (p : Rat) + 1 := by positivity
    have hq : ((p : Rat) + 1) < ((q : Rat) + 1) := by
      have : (p : Rat) < (q : Rat) := by exact_mod_cast hpq
      linarith
    have hw : (0 : Rat) < first_weight - 1 := by norm_num [first_weight]
    have := div_lt_div_of_pos_left hw hp hq
    unfold posWeight
    linarith

theorem position_weight_spec_witness :
    (1 : Rat) < posWeight 0 ∧ posWeight 7 < posWeight 2 :=
  ⟨position_weight_spec.2.2.1 0, position_weight_spec.2.2.2 2 7 (by norm_num)⟩

/-! ## `best_match` (C1–C4) -/

theorem headD_mem {l : List Movie} (h : l ≠ []) : l.headD defMovie ∈ l := by
  cases l with
  | nil => exact absurd rfl h
  | cons x xs => simp

theorem getD_mem {l : List Movie} {i : Nat} (h : i < l.length) :
    l.getD i defMovie ∈ l := by
  rw [List.getD_eq_getElem l defMovie h]
  exact List.getElem_mem h

theorem keep_min_match {year : Option Int} {m : Movie}
    (h : keepMovie year m = true) : min_match ≤ m.matchVal := by
  simp [keepMovie] at h
  exact h.2

theorem keep_year {year : Option Int} {m : Movie} (h : keepMovie year m = true)
    (hy : truthy year = true) (hmy : truthy m.year = true) : m.year = year := by
  simp only [keepMovie, Bool.and_eq_true] at h
  have hw : wrongYear year m = false := by
    have h1 := h.1
    simpa using h1
  simp [wrongYear, hy, hmy] at hw
  exact hw

theorem exact_year {name : Str} {year : Option Int} {m : Movie}
    (h : isExact name year m = true) : m.year = year := by
  simp only [isExact, Bool.and_eq_true] at h
  exact beq_iff_eq.mp h.1.2

theorem best_match_single_mem {name : Str} {year : Option Int} {movies : List Movie}
    {sm : Bool} {m : Movie} (h : best_match name year movies sm = .single m) :
    m ∈ movies.filter (isExact name year) ∨ m ∈ movies.filter (keepMovie year) := by
  simp only [best_match] at h
  by_cases c0 : movies.isEmpty = true
  · rw [if_pos c0] at h
    exact absurd h (by simp)
  rw [if_neg c0] at h
  by_cases c1 : (movies.filter (keepMovie year)).isEmpty = true
  · rw [if_pos c1] at h
    exact absurd h (by simp)
  rw [if_neg c1] at h
  have hkeepne : movies.filter (keepMovie year) ≠ [] := by
    intro hnil
    rw [hnil] at c1
    simp at c1
  have hkeep0 : 0 < (movies.filter (keepMovie year)).length := List.length_pos.mpr hkeepne
  by_cases c2 : (movies.filter (isExact name year)).length = 1
  · rw [if_pos c2] at h
    injection h with h
    left
    rw [← h]
    apply headD_mem
    intro hnil
    rw [hnil] at c2
    simp at c2
  rw [if_neg c2] at h
  by_cases c3 : (movies.filter (keepMovie year)).length = 1
  · rw [if_pos c3] at h
    injection h with h
    right
    rw [← h]
    exact headD_mem hkeepne
  rw [if_neg c3] at h
  by_cases c4 : ((movies.filter (keepMovie year)).getD 0 defMovie).matchVal
      - ((movies.filter (keepMovie year)).getD 1 defMovie).matchVal < min_diff
  · rw [if_pos c4] at h
    exact absurd h (by simp)
  rw [if_neg c4] at h
  cases sm with
  | true =>
    rw [if_pos rfl] at h
    injection h with h
    right
    rw [← h]
    exact getD_mem hkeep0
  | false =>
    rw [if_neg (by simp)] at h
    exact absurd h (by simp)

theorem best_match_multiple_eq {name : Str} {year : Option Int} {movies : List Movie}
    {sm : Bool} {ms : List Movie} (h : best_match name year movies sm = .multiple ms) :
    ms = movies.filter (keepMovie year) := by
  simp only [best_match] at h
  by_cases c0 : movies.isEmpty = true
  · rw [if_pos c0] at h
    exact absurd h (by simp)
  rw [if_neg c0] at h
  by_cases c1 : (movies.filter (keepMovie year)).isEmpty = true
  · rw [if_pos c1] at h
    exact absurd h (by simp)
  rw [if_neg c1] at h
  by_cases c2 : (movies.filter (isExact name year)).length = 1
  · rw [if_pos c2] at h
    exact absurd h (by simp)
  rw [if_neg c2] at h
  by_cases c3 : (movies.filter (keepMovie year)).length = 1
  · rw [if_pos c3] at h
    exact absurd h (by simp)
  rw [if_neg c3] at h
  by_cases c4 : ((movies.filter (keepMovie year)).getD 0 defMovie).matchVal
      - ((movies.filter (keepMovie year)).getD 1 defMovie).matchVal < min_diff
  · rw [if_pos c4] at h
    exact absurd h (by simp)
  rw [if_neg c4] at h
  cases sm with
  | true =>
    rw [if_pos rfl] at h
    exact absurd h (by simp)
  | false =>
    rw [if_neg (by simp)] at h
    injection h with h
    exact h.symm

/-- C4: for every query whose year is set (truthy, as the code tests it),
`best_match` never returns — as the single result or inside the returned
list — a candidate whose year is set and differs from the query year,
regardless of score. -/
theorem best_match_year_strict (name : Str) (year : Option Int)
    (movies : List Movie) (sm : Bool) (m : Movie)
    (hy : truthy year = true)
    (hret : best_match name year movies sm = .single m ∨
      ∃ ms, best_match name year movies sm = .multiple ms ∧ m ∈ ms)
    (hmy : truthy m.year = true) :
    m.year = year := by
  rcases hret with hs | ⟨ms, hm, hmem⟩
  · rcases best_match_single_mem hs with hx | hk
    · exact exact_year (List.mem_filter.mp hx).2
    · exact keep_year (List.mem_filter.mp hk).2 hy hmy
  · rw [best_match_multiple_eq hm] at hmem
    exact keep_year (List.mem_filter.mp hmem).2 hy hmy

theorem best_match_year_strict_witness :
    (⟨"a".toList, some 1999, 8/10, [], none, none⟩ : Movie).year = some 1999 := by
  have hbm : best_match "a".toList (some 1999)
      [⟨"a".toList, some 1999, 8/10, [], none, none⟩] true
      = .single ⟨"a".toList, some 1999, 8/10, [], none, none⟩ := by
    have l1 : lower ['a'] = ['a'] := by decide
    norm_num [best_match, keepMovie, wrongYear, isExact, truthy, min_match, min_diff, l1]
  exact best_match_year_strict "a".toList (some 1999)
    [⟨"a".toList, some 1999, 8/10, [], none, none⟩] true
    ⟨"a".toList, some 1999, 8/10, [], none, none⟩
    (by decide) (Or.inl hbm) (by decide)

/-- C3 (amended): every candidate `best_match` returns inside the ambiguous
list, and every single result that is not an exact match, has score at least
`min_match`; an exact match, however, can be returned with a score below
`min_match`, because `exact` is collected before the score-filter removal. -/
theorem best_match_score_filter (name : Str) (year : Option Int)
    (movies : List Movie) (sm : Bool) :
    (∀ ms, best_match name year movies sm = .multiple ms →
      ∀ m ∈ ms, min_match ≤ m.matchVal) ∧
    (∀ m, best_match name year movies sm = .single m →
      min_match ≤ m.matchVal ∨ isExact name year m = true) := by
  constructor
  · intro ms hm m hmem
    rw [best_match_multiple_eq hm] at hmem
    exact keep_min_match (List.mem_filter.mp hmem).2
  · intro m hm
    rcases best_match_single_mem hm with hx | hk
    · exact Or.inr (List.mem_filter.mp hx).2
    · exact Or.inl (keep_min_match (List.mem_filter.mp hk).2)

theorem best_match_score_filter_witness :
    min_match ≤ (⟨"a".toList, none, 8/10, [], none, none⟩ : Movie).matchVal ∨
      isExact "a".toList none ⟨"a".toList, none, 8/10, [], none, none⟩ = true := by
  have hbm : best_match "a".toList none
      [⟨"a".toList, none, 8/10, [], none, none⟩] true
      = .single ⟨"a".toList, none, 8/10, [], none, none⟩ := by
    norm_num [best_match, keepMovie, wrongYear, isExact, truthy, min_match, min_diff]
  exact (best_match_score_filter "a".toList none
      [⟨"a".toList, none, 8/10, [], none, none⟩] true).2
    ⟨"a".toList, none, 8/10, [], none, none⟩ hbm

/-- C3 (counterexample): with a unique exact match scoring `0.5 < min_match`
and another surviving candidate, `best_match` returns the exact match even
though its score is below `min_match`, contradicting the claim that
candidates scoring below `min_match` are dropped before the exact-match
decision. -/
theorem best_match_score_filter_cex :
    best_match "foo".toList (some 2000)
      [⟨"Foo".toList, some 2000, 1/2, [], none, none⟩,
       ⟨"bar".toList, some 2000, 8/10, [], none, none⟩] true
      = .single ⟨"Foo".toList, some 2000, 1/2, [], none, none⟩ ∧
    ((1 : Rat)/2 < min_match) := by
  constructor
  · have l1 : lower ['F', 'o', 'o'] = ['f', 'o', 'o'] := by decide
    have l2 : lower ['b', 'a', 'r'] = ['b', 'a', 'r'] := by decide
    have l3 : lower ['f', 'o', 'o'] = ['f', 'o', 'o'] := by decide
    norm_num [best_match, keepMovie, wrongYear, isExact, truthy, min_match,
      min_diff, l1, l2, l3]
    decide
  · norm_num [min_match]

/-- C2 (amended): if exactly one candidate is an exact match (same truthy
year, case-insensitively equal name) and at least one candidate survives
the year and score filters, `best_match` returns the exact match as the
single result — even when a different candidate scores higher.  (When every
candidate is filtered out, `best_match` returns no match even if a unique
exact match exists.) -/
theorem best_match_exact_priority (name : Str) (year : Option Int)
    (movies : List Movie) (sm : Bool) (e : Movie)
    (hex : movies.filter (isExact name year) = [e])
    (hsurv : ∃ m ∈ movies, keepMovie year m = true) :
    best_match name year movies sm = .single e := by
  obtain ⟨m, hm, hkm⟩ := hsurv
  have hmem : m ∈ movies.filter (keepMovie year) := List.mem_filter.mpr ⟨hm, hkm⟩
  have c0 : ¬movies.isEmpty = true := by
    intro hempty
    rw [List.isEmpty_iff] at hempty
    rw [hempty] at hm
    simp at hm
  have c1 : ¬(movies.filter (keepMovie year)).isEmpty = true := by
    intro hempty
    rw [List.isEmpty_iff] at hempty
    rw [hempty] at hmem
    simp at hmem
  have c2 : (movies.filter (isExact name year)).length = 1 := by
    rw [hex]
    rfl
  simp only [best_match]
  rw [if_neg c0, if_neg c1, if_pos c2, hex]
  rfl

theorem best_match_exact_priority_witness :
    best_match "foo".toList (some 2000)
      [⟨"Foo".toList, some 2000, 75/100, [], none, none⟩,
       ⟨"other".toList, some 2000, 99/100, [], none, none⟩] true
      = .single ⟨"Foo".toList, some 2000, 75/100, [], none, none⟩ := by
  exact best_match_exact_priority "foo".toList (some 2000) _ true
    ⟨"Foo".toList, some 2000, 75/100, [], none, none⟩
    (by rw [List.filter_cons_of_pos (by decide), List.filter_cons_of_neg (by decide),
          List.filter_nil])
    ⟨⟨"other".toList, some 2000, 99/100, [], none, none⟩, by simp,
      by norm_num [keepMovie, wrongYear, truthy, min_match]⟩

/-- C2 (counterexample): a unique exact match whose score is below
`min_match`, with no other candidate surviving, yields `NoMatch` — not the
exact candidate — refuting the unconditional claim. -/
theorem best_match_exact_priority_cex :
    best_match "Foo".toList (some 2000)
      [⟨"foo".toList, some 2000, 1/2, [], none, none⟩] true = .noMatch ∧
    BMResult.noMatch ≠
      .single ⟨"foo".toList, some 2000, 1/2, [], none, none⟩ := by
  constructor
  · norm_num [best_match, keepMovie, wrongYear, isExact, truthy, min_match, min_diff]
  · simp

/-- C1 (amended): when at least two candidates survive the year and score
filters and there is no unique exact match, `best_match` computes
`diff = score[0] - score[1]` over the (already sorted, score-descending)
remaining list; if `diff < min_diff` it returns `NoMatch` regardless of
`single_match`, and if `diff ≥ min_diff` it returns the top-scoring
candidate when `single_match` is true and the whole remaining list when
`single_match` is false. -/
theorem best_match_tiebreak (name : Str) (year : Option Int)
    (movies : List Movie) (sm : Bool)
    (hsorted : movies.Pairwise (fun x y => y.matchVal ≤ x.matchVal))
    (hrem : 2 ≤ (movies.filter (keepMovie year)).length)
    (hex : (movies.filter (isExact name year)).length ≠ 1) :
    (∀ m ∈ movies.filter (keepMovie year),
      m.matchVal ≤ ((movies.filter (keepMovie year)).getD 0 defMovie).matchVal) ∧
    best_match name year movies sm =
      (if ((movies.filter (keepMovie year)).getD 0 defMovie).matchVal
          - ((movies.filter (keepMovie year)).getD 1 defMovie).matchVal < min_diff
       then BMResult.noMatch
       else if sm then BMResult.single ((movies.filter (keepMovie year)).getD 0 defMovie)
       else BMResult.multiple (movies.filter (keepMovie year))) := by
  have hkeepne : movies.filter (keepMovie year) ≠ [] := by
    intro hnil
    rw [hnil] at hrem
    simp at hrem
  have c0 : ¬movies.isEmpty = true := by
    intro hempty
    rw [List.isEmpty_iff] at hempty
    rw [hempty] at hkeepne
    simp at hkeepne
  have c1 : ¬(movies.filter (keepMovie year)).isEmpty = true := by
    intro hempty
    rw [List.isEmpty_iff] at hempty
    exact hkeepne hempty
  have c3 : ¬(movies.filter (keepMovie year)).length = 1 := by omega
  constructor
  · have hp : (movies.filter (keepMovie year)).Pairwise
        (fun x y => y.matchVal ≤ x.matchVal) :=
      hsorted.sublist (List.filter_sublist movies)
    rcases hfk : movies.filter (keepMovie year) with _ | ⟨x, xs⟩
    · exact absurd hfk hkeepne
    · rw [hfk] at hp
      intro m hmem
      rcases List.mem_cons.mp hmem with rfl | hmm
      · simp
      · simpa using (List.pairwise_cons.mp hp).1 m hmm
  · simp only [best_match]
    rw [if_neg c0, if_neg c1, if_neg hex, if_neg c3]

theorem best_match_tiebreak_witness :
    best_match "x".toList none
      [⟨"a".toList, none, 8/10, [], none, none⟩,
       ⟨"b".toList, none, 7/10, [], none, none⟩] true
      = .single ⟨"a".toList, none, 8/10, [], none, none⟩ := by
  have h := (best_match_tiebreak "x".toList none
      [⟨"a".toList, none, 8/10, [], none, none⟩,
       ⟨"b".toList, none, 7/10, [], none, none⟩] true
      (by norm_num) (by norm_num [keepMovie, wrongYear, truthy, min_match])
      (by simp [isExact, truthy])).2
  rw [h]
  norm_num [keepMovie, wrongYear, truthy, min_match, min_diff]

/-- C1 (counterexample): two surviving candidates scoring `0.80` and
`0.795` (`diff = 0.005 < min_diff`) with `single_match = false` yield
`NoMatch`, not `Ambiguous(all remaining candidates)` as the claim states. -/
theorem best_match_tiebreak_cex :
    best_match "x".toList none
      [⟨"a".toList, none, 8/10, [], none, none⟩,
       ⟨"b".toList, none, 795/1000, [], none, none⟩] false = .noMatch ∧
    BMResult.noMatch ≠
      .multiple [⟨"a".toList, none, 8/10, [], none, none⟩,
        ⟨"b".toList, none, 795/1000, [], none, none⟩] := by
  constructor
  · norm_num [best_match, keepMovie, wrongYear, isExact, truthy, min_match,
      min_diff, defMovie]
  · simp

/-! ## Result cap (C8) -/

theorem searchLoop_take (name : Str) :
    ∀ (rows : List Row) (count : Nat),
      searchLoop name count rows
        = searchLoop name count (rows.take (max_results + 1 - count)) := by
  intro rows
  induction rows with
  | nil => intro count; simp
  | cons row rest ih =>
    intro count
    by_cases hc : max_results < count
    · have h0 : max_results + 1 - count = 0 := by omega
      rw [h0]
      simp only [List.take_zero]
      simp only [searchLoop, if_pos hc]
    · have h1 : max_results + 1 - count = (max_results - count) + 1 := by omega
      rw [h1, List.take_succ_cons]
      simp only [searchLoop, if_neg hc]
      have h2 : max_results - count = max_results + 1 - (count + 1) := by omega
      rw [h2]
      cases processRow name count row with
      | some movie => rw [← ih (count + 1)]
      | none => rw [← ih (count + 1)]

theorem searchLoop_length (name : Str) :
    ∀ (rows : List Row) (count : Nat),
      (searchLoop name count rows).length ≤ max_results + 1 - count := by
  intro rows
  induction rows with
  | nil => intro count; simp [searchLoop]
  | cons row rest ih =>
    intro count
    by_cases hc : max_results < count
    · simp [searchLoop, if_pos hc]
    · simp only [searchLoop, if_neg hc]
      have hrec := ih (count + 1)
      cases processRow name count row with
      | some movie =>
        simp only [List.length_cons]
        omega
      | none =>
        simp only []
        omega

/-- C8 (amended): the row loop of `search` breaks once `count > max_results`,
so at most `max_results + 1` rows (51 by default, indices 0 through 50) are
scored and returned, and rows beyond index `max_results` are never
considered; the cap is one more than `max_results`, not `max_results`. -/
theorem search_rows_cap (name : Str) (rows : List Row) :
    (search_rows name rows).length ≤ max_results + 1 ∧
    search_rows name rows = search_rows name (rows.take (max_results + 1)) := by
  constructor
  · unfold search_rows
    rw [List.length_mergeSort]
    simpa using searchLoop_length name rows 0
  · unfold search_rows
    have h := searchLoop_take name rows 0
    simp only [Nat.sub_zero] at h
    rw [h]

theorem search_rows_cap_witness :
    (search_rows ['a'] (List.replicate 60 ⟨[], [], ['a'], [], []⟩)).length ≤ 51 := by
  have h := (search_rows_cap ['a'] (List.replicate 60 ⟨[], [], ['a'], [], []⟩)).1
  simpa [max_results] using h

/-- C8 (counterexample): with 52 well-formed result rows, the loop scores
and returns 51 candidates — the row at index 50 (the 51st) is processed
because the loop breaks only when `count > max_results` — contradicting the
claim that the number of candidates considered is capped at 50. -/
theorem search_rows_cap_cex :
    (search_rows ['a'] (List.replicate 52 ⟨[], [], ['a'], [], []⟩)).length = 51 ∧
    ¬(51 ≤ 50) := by
  constructor
  · unfold search_rows
    rw [List.length_mergeSort]
    decide
  · decide

/-! ## Alternate-name weighting (C7) -/

/-- C7 (amended): the aka loop of the scorer compares each alternate name
against the current ratio — which may already reflect an earlier
alternate's weighted ratio — not against the base ratio; when an alternate
beats the current ratio the ratio becomes that alternate's ratio times
`aka_weight`.  Hence: when no alternate's ratio exceeds the starting ratio
the starting ratio is kept, and in general the final ratio is either the
starting ratio or some alternate's ratio times `aka_weight` (possibly one
that does not exceed the base ratio). -/
theorem applyAkas_characterization (query : Str) (base : Rat) (akas : List Str) :
    ((∀ aka ∈ akas, ratioOf (title aka) (title query) ≤ base) →
      applyAkas query base akas = base) ∧
    (applyAkas query base akas = base ∨
      ∃ aka ∈ akas, applyAkas query base akas
        = ratioOf (title aka) (title query) * aka_weight) := by
  constructor
  · intro h
    induction akas with
    | nil => rfl
    | cons a as ih =>
      have ha : ratioOf (title a) (title query) ≤ base := h a (by simp)
      simp only [applyAkas, if_neg (not_lt.mpr ha)]
      exact ih (fun aka hm => h aka (by simp [hm]))
  · induction akas generalizing base with
    | nil => exact Or.inl rfl
    | cons a as ih =>
      simp only [applyAkas]
      by_cases hc : base < ratioOf (title a) (title query)
      · rw [if_pos hc]
        rcases ih (ratioOf (title a) (title query) * aka_weight) with h | ⟨aka, hm, he⟩
        · exact Or.inr ⟨a, by simp, h⟩
        · exact Or.inr ⟨aka, by simp [hm], he⟩
      · rw [if_neg hc]
        rcases ih base with h | ⟨aka, hm, he⟩
        · exact Or.inl h
        · exact Or.inr ⟨aka, by simp [hm], he⟩

theorem applyAkas_characterization_witness :
    applyAkas "xy".toList (9/10) ["z".toList] = 9/10 := by
  apply (applyAkas_characterization "xy".toList (9/10) ["z".toList]).1
  intro aka hm
  rcases List.mem_singleton.mp hm with rfl
  have hm0 : matchesTotal (title "z".toList) (title "xy".toList) = 0 := by decide
  have hl1 : (title "z".toList).length = 1 := by decide
  have hl2 : (title "xy".toList).length = 2 := by decide
  rw [ratioOf, hm0, hl1, hl2]
  norm_num

/-- C7 (counterexample): query `abcdefghijklmnopqrst`, candidate name
`abcdefghijklmnopqrs` (base ratio `38/39`), alternates equal to the query
(ratio `1`, exceeds the base) and to the candidate name (ratio `38/39`, does
not exceed the base).  The first alternate lowers the current ratio to
`0.95`; the second then beats that weighted value, so the final ratio is
`38/39 * 0.95 = 361/390` — neither the base ratio nor
`aka_weight` times the ratio of any alternate that exceeds the base, as the
claim would require. -/
theorem applyAkas_cex :
    ratioOf (title "abcdefghijklmnopqrs".toList) (title "abcdefghijklmnopqrst".toList)
      = 38/39 ∧
    ratioOf (title "abcdefghijklmnopqrst".toList) (title "abcdefghijklmnopqrst".toList)
      = 1 ∧
    applyAkas "abcdefghijklmnopqrst".toList (38/39)
      ["abcdefghijklmnopqrst".toList, "abcdefghijklmnopqrs".toList] = 361/390 ∧
    (361/390 : Rat) ≠ 38/39 ∧
    (361/390 : Rat) ≠ 1 * aka_weight := by
  have hm1 : matchesTotal (title "abcdefghijklmnopqrs".toList)
      (title "abcdefghijklmnopqrst".toList) = 19 := by decide
  have hm2 : matchesTotal (title "abcdefghijklmnopqrst".toList)
      (title "abcdefghijklmnopqrst".toList) = 20 := by decide
  have hl1 : (title "abcdefghijklmnopqrs".toList).length = 19 := by decide
  have hl2 : (title "abcdefghijklmnopqrst".toList).length = 20 := by decide
  have hr1 : ratioOf (title "abcdefghijklmnopqrs".toList)
      (title "abcdefghijklmnopqrst".toList) = 38/39 := by
    rw [ratioOf, hm1, hl1, hl2]
    norm_num
  have hr2 : ratioOf (title "abcdefghijklmnopqrst".toList)
      (title "abcdefghijklmnopqrst".toList) = 1 := by
    rw [ratioOf, hm2, hl2]
    norm_num
  refine ⟨hr1, hr2, ?_, by norm_num, by norm_num [aka_weight]⟩
  simp only [applyAkas, hr1, hr2]
  norm_num [aka_weight]

/-! ## `SequenceMatcher` facts (towards C5) -/

theorem getA_eq_getB {s : Str} {x : Nat} (h : x < s.length) : getA s x = getB s x := by
  unfold getA getB
  rw [List.getD_eq_getElem s _ h, List.getD_eq_getElem s _ h]

theorem getB_of_get? {s : Str} {x : Nat} {c : Char} (h : s.get? x = some c) :
    getB s x = c := by
  unfold getB
  rw [List.getD_eq_getElem?_getD, ← List.get?_eq_getElem?, h]
  rfl

theorem lt_length_of_get? {s : Str} {x : Nat} {c : Char} (h : s.get? x = some c) :
    x < s.length :=
  (List.get?_eq_some.mp h).1

theorem mem_b2j_facts {b : Str} {c : Char} {j : Nat} (h : j ∈ b2j b c) :
    j < b.length ∧ getB b j = c ∧ isjunk c = false := by
  simp only [b2j] at h
  by_cases hj : isjunk c = true
  · rw [if_pos hj] at h
    simp at h
  · rw [if_neg hj] at h
    split at h
    · simp at h
    · have hm := List.mem_filter.mp h
      exact ⟨List.mem_range.mp hm.1, by simpa using hm.2, by simpa using hj⟩

theorem mem_b2j_closed {b : Str} {c : Char} {j : Nat} (hj : j ∈ b2j b c)
    {x : Nat} (hx : x < b.length) (hc : getB b x = c) : x ∈ b2j b c := by
  simp only [b2j] at hj ⊢
  by_cases hjk : isjunk c = true
  · rw [if_pos hjk] at hj
    simp at hj
  · rw [if_neg hjk] at hj ⊢
    split at hj
    · simp at hj
    · next hpop =>
      rw [if_neg hpop]
      exact List.mem_filter.mpr ⟨List.mem_range.mpr hx, decide_eq_true hc⟩

theorem b2j_sorted (b : Str) (c : Char) : (b2j b c).Pairwise (· < ·) := by
  simp only [b2j]
  split
  · exact List.Pairwise.nil
  · split
    · exact List.Pairwise.nil
    · exact (List.pairwise_lt_range b.length).sublist (List.filter_sublist _)

theorem mem_rowJs_facts {a b : Str} {i j : Nat} (h : j ∈ rowJs a b i) :
    ∃ c, a.get? i = some c ∧ j ∈ b2j b c := by
  unfold rowJs at h
  split at h
  · next c hc => exact ⟨c, hc, h⟩
  · simp at h

theorem rowJs_sorted (a b : Str) (i : Nat) : (rowJs a b i).Pairwise (· < ·) := by
  unfold rowJs
  split
  · exact b2j_sorted _ _
  · exact List.Pairwise.nil

theorem flmInner_fst (blo bhi i : Nat) (j2len : Nat → Nat) :
    ∀ (js : List Nat) (acc : Nat → Nat) (best : FLMatch),
      js.Pairwise (· < ·) →
      ∀ x, (flmInner blo bhi i j2len js acc best).1 x
        = if x ∈ js ∧ blo ≤ x ∧ x < bhi
          then (if x = 0 then 0 else j2len (x - 1)) + 1
          else acc x := by
  intro js
  induction js with
  | nil =>
    intro acc best _ x
    simp [flmInner]
  | cons j js ih =>
    intro acc best hsort x
    have hlt : ∀ y ∈ js, j < y := (List.pairwise_cons.mp hsort).1
    have hsort' : js.Pairwise (· < ·) := (List.pairwise_cons.mp hsort).2
    have hjnotmem : j ∉ js := fun hmem => lt_irrefl j (hlt j hmem)
    by_cases hb1 : j < blo
    · rw [show flmInner blo bhi i j2len (j :: js) acc best
          = flmInner blo bhi i j2len js acc best by rw [flmInner, if_pos hb1]]
      have hiff : (x ∈ j :: js ∧ blo ≤ x ∧ x < bhi)
          ↔ (x ∈ js ∧ blo ≤ x ∧ x < bhi) := by
        constructor
        · rintro ⟨hm, hb, hh⟩
          rcases List.mem_cons.mp hm with rfl | hm'
          · omega
          · exact ⟨hm', hb, hh⟩
        · rintro ⟨hm, hb, hh⟩
          exact ⟨List.mem_cons_of_mem _ hm, hb, hh⟩
      rw [ih acc best hsort' x]
      simp only [hiff]
    · by_cases hb2 : bhi ≤ j
      · rw [show flmInner blo bhi i j2len (j :: js) acc best = (acc, best) by
          rw [flmInner, if_neg hb1, if_pos hb2]]
        have hneg : ¬(x ∈ j :: js ∧ blo ≤ x ∧ x < bhi) := by
          rintro ⟨hm, hb, hh⟩
          rcases List.mem_cons.mp hm with rfl | hm'
          · omega
          · have := hlt x hm'
            omega
        rw [if_neg hneg]
      · rw [show flmInner blo bhi i j2len (j :: js) acc best
            = flmInner blo bhi i j2len js
                (fun y => if y = j then (if j = 0 then 0 else j2len (j - 1)) + 1 else acc y)
                (if best.size < (if j = 0 then 0 else j2len (j - 1)) + 1
                 then ⟨i + 1 - ((if j = 0 then 0 else j2len (j - 1)) + 1),
                       j + 1 - ((if j = 0 then 0 else j2len (j - 1)) + 1),
                       (if j = 0 then 0 else j2len (j - 1)) + 1⟩
                 else best) by
          rw [flmInner, if_neg hb1, if_neg hb2]]
        rw [ih _ _ hsort' x]
        by_cases hx : x = j
        · subst hx
          rw [if_neg (fun hc => hjnotmem hc.1)]
          simp only [List.mem_cons_self, true_and]
          rw [if_pos (show blo ≤ x ∧ x < bhi by omega)]
          simp
        · have hiff : (x ∈ js ∧ blo ≤ x ∧ x < bhi)
              ↔ (x ∈ j :: js ∧ blo ≤ x ∧ x < bhi) := by
            constructor
            · rintro ⟨hm, hb, hh⟩
              exact ⟨List.mem_cons_of_mem _ hm, hb, hh⟩
            · rintro ⟨hm, hb, hh⟩
              rcases List.mem_cons.mp hm with rfl | hm'
              · exact absurd rfl hx
              · exact ⟨hm', hb, hh⟩
          by_cases hxm : x ∈ js ∧ blo ≤ x ∧ x < bhi
          · rw [if_pos hxm, if_pos (hiff.mp hxm)]
          · rw [if_neg hxm, if_neg (fun hc => hxm (hiff.mpr hc))]
            simp [hx]

theorem flmInner_snd_pres (blo bhi i : Nat) (j2len : Nat → Nat) (J : List Nat)
    (P : FLMatch → Prop)
    (hstep : ∀ (bst : FLMatch) (j : Nat), P bst → j ∈ J → blo ≤ j → j < bhi →
      bst.size < (if j = 0 then 0 else j2len (j - 1)) + 1 →
      P ⟨i + 1 - ((if j = 0 then 0 else j2len (j - 1)) + 1),
         j + 1 - ((if j = 0 then 0 else j2len (j - 1)) + 1),
         (if j = 0 then 0 else j2len (j - 1)) + 1⟩) :
    ∀ (js : List Nat) (acc : Nat → Nat) (best : FLMatch),
      (∀ j ∈ js, j ∈ J) → P best → P (flmInner blo bhi i j2len js acc best).2 := by
  intro js
  induction js with
  | nil =>
    intro acc best _ hP
    simpa [flmInner] using hP
  | cons j js ih =>
    intro acc best hjs hP
    by_cases hb1 : j < blo
    · rw [show flmInner blo bhi i j2len (j :: js) acc best
          = flmInner blo bhi i j2len js acc best by rw [flmInner, if_pos hb1]]
      exact ih acc best (fun y hy => hjs y (List.mem_cons_of_mem _ hy)) hP
    · by_cases hb2 : bhi ≤ j
      · rw [show flmInner blo bhi i j2len (j :: js) acc best = (acc, best) by
          rw [flmInner, if_neg hb1, if_pos hb2]]
        exact hP
      · rw [show flmInner blo bhi i j2len (j :: js) acc best
            = flmInner blo bhi i j2len js
                (fun y => if y = j then (if j = 0 then 0 else j2len (j - 1)) + 1 else acc y)
                (if best.size < (if j = 0 then 0 else j2len (j - 1)) + 1
                 then ⟨i + 1 - ((if j = 0 then 0 else j2len (j - 1)) + 1),
                       j + 1 - ((if j = 0 then 0 else j2len (j - 1)) + 1),
                       (if j = 0 then 0 else j2len (j - 1)) + 1⟩
                 else best) by
          rw [flmInner, if_neg hb1, if_neg hb2]]
        apply ih _ _ (fun y hy => hjs y (List.mem_cons_of_mem _ hy))
        by_cases hup : best.size < (if j = 0 then 0 else j2len (j - 1)) + 1
        · rw [if_pos hup]
          exact hstep best j hP (hjs j (List.mem_cons_self _ _)) (by omega) (by omega) hup
        · rw [if_neg hup]
          exact hP

theorem dpK_le (a b : Str) (alo blo bhi : Nat) :
    ∀ i j, dpK a b alo blo bhi i j ≤ i + 1 - alo ∧ dpK a b alo blo bhi i j ≤ j + 1 - blo := by
  intro i
  induction i using Nat.strong_induction_on with
  | _ i ih =>
    intro j
    rw [dpK]
    split
    · next hcond =>
      obtain ⟨hm, hbl, hbh, hal⟩ := hcond
      by_cases hrec : alo < i ∧ 0 < j
      · rw [if_pos hrec]
        have := ih (i - 1) (by omega) (j - 1)
        omega
      · rw [if_neg hrec]
        omega
    · omega

theorem kOf_eq_dpK (a b : Str) (alo blo bhi i : Nat) (j2len : Nat → Nat)
    (hal : alo ≤ i)
    (h2 : ∀ x, j2len x = if alo < i then dpK a b alo blo bhi (i - 1) x else 0)
    {j : Nat} (hm : j ∈ rowJs a b i) (hbl : blo ≤ j) (hbh : j < bhi) :
    (if j = 0 then 0 else j2len (j - 1)) + 1 = dpK a b alo blo bhi i j := by
  rw [dpK]
  rw [if_pos (show j ∈ rowJs a b i ∧ blo ≤ j ∧ j < bhi ∧ alo ≤ i from ⟨hm, hbl, hbh, hal⟩)]
  congr 1
  rw [h2 (j - 1)]
  by_cases hj0 : j = 0
  · rw [if_pos hj0, if_neg (by omega)]
  · rw [if_neg hj0]
    by_cases hai : alo < i
    · rw [if_pos hai, if_pos ⟨hai, by omega⟩]
    · rw [if_neg hai, if_neg (fun hc => hai hc.1)]

theorem dpK_zero_of_not {a b : Str} {alo blo bhi i j : Nat}
    (h : ¬(j ∈ rowJs a b i ∧ blo ≤ j ∧ j < bhi ∧ alo ≤ i)) :
    dpK a b alo blo bhi i j = 0 := by
  rw [dpK, if_neg h]

theorem flmRows_pres (a b : Str) (alo blo bhi ahi : Nat) (P : FLMatch → Prop)
    (hstep : ∀ (r j : Nat), alo ≤ r → r < ahi → j ∈ rowJs a b r → blo ≤ j → j < bhi →
      ∀ bst, P bst → bst.size < dpK a b alo blo bhi r j →
      P ⟨r + 1 - dpK a b alo blo bhi r j, j + 1 - dpK a b alo blo bhi r j,
         dpK a b alo blo bhi r j⟩) :
    ∀ (cnt i : Nat) (j2len : Nat → Nat) (best : FLMatch),
      alo ≤ i → i + cnt ≤ ahi →
      (∀ x, j2len x = if alo < i then dpK a b alo blo bhi (i - 1) x else 0) →
      P best → P (flmRows a b blo bhi (List.range' i cnt) j2len best) := by
  intro cnt
  induction cnt with
  | zero =>
    intro i j2len best _ _ _ hP
    simpa [flmRows] using hP
  | succ cnt ih =>
    intro i j2len best hal hcnt h2 hP
    rw [List.range'_succ]
    rw [show flmRows a b blo bhi (i :: List.range' (i + 1) cnt) j2len best
        = flmRows a b blo bhi (List.range' (i + 1) cnt)
            (flmInner blo bhi i j2len (rowJs a b i) (fun _ => 0) best).1
            (flmInner blo bhi i j2len (rowJs a b i) (fun _ => 0) best).2 from rfl]
    apply ih (i + 1) _ _ (by omega) (by omega)
    · intro x
      rw [flmInner_fst blo bhi i j2len (rowJs a b i) (fun _ => 0) best (rowJs_sorted a b i) x]
      by_cases hc : x ∈ rowJs a b i ∧ blo ≤ x ∧ x < bhi
      · rw [if_pos hc, if_pos (show alo < i + 1 by omega), Nat.add_sub_cancel]
        exact kOf_eq_dpK a b alo blo bhi i j2len hal h2 hc.1 hc.2.1 hc.2.2
      · rw [if_neg hc, if_pos (show alo < i + 1 by omega), Nat.add_sub_cancel]
        rw [dpK_zero_of_not (fun hfull => hc ⟨hfull.1, hfull.2.1, hfull.2.2.1⟩)]
    · apply flmInner_snd_pres blo bhi i j2len (rowJs a b i) P ?_ (rowJs a b i) _ best
        (fun _ h => h) hP
      intro bst j hPb hjm hbl hbh hsz
      have hk := kOf_eq_dpK a b alo blo bhi i j2len hal h2 hjm hbl hbh
      rw [hk] at hsz ⊢
      exact hstep i j hal (by omega) hjm hbl hbh bst hPb hsz

/-- One-step unfolding of the dp-value specification. -/
theorem dpK_eq (a b : Str) (alo blo bhi i j : Nat) :
    dpK a b alo blo bhi i j =
      if j ∈ rowJs a b i ∧ blo ≤ j ∧ j < bhi ∧ alo ≤ i then
        (if alo < i ∧ 0 < j then dpK a b alo blo bhi (i - 1) (j - 1) else 0) + 1
      else 0 := by
  rw [dpK]

/-- The leftward extension loops keep the match inside the window. -/
theorem extendL_bounds (jp : Bool) (a b : Str) (alo blo ahi bhi : Nat) :
    ∀ (fuel : Nat) (m : FLMatch),
      alo ≤ m.i ∧ m.i + m.size ≤ ahi ∧ blo ≤ m.j ∧ m.j + m.size ≤ bhi →
      alo ≤ (extendL jp a b alo blo fuel m).i ∧
        (extendL jp a b alo blo fuel m).i + (extendL jp a b alo blo fuel m).size ≤ ahi ∧
        blo ≤ (extendL jp a b alo blo fuel m).j ∧
        (extendL jp a b alo blo fuel m).j + (extendL jp a b alo blo fuel m).size ≤ bhi := by
  intro fuel
  induction fuel with
  | zero => intro m hm; simpa [extendL] using hm
  | succ fuel ih =>
    intro m hm
    rw [extendL]
    by_cases hg : alo < m.i ∧ blo < m.j ∧ isjunk (getB b (m.j - 1)) = jp ∧
        getA a (m.i - 1) = getB b (m.j - 1)
    · rw [if_pos hg]
      obtain ⟨hg1, hg2, -, -⟩ := hg
      exact ih ⟨m.i - 1, m.j - 1, m.size + 1⟩
        ⟨show alo ≤ m.i - 1 by omega, show m.i - 1 + (m.size + 1) ≤ ahi by omega,
         show blo ≤ m.j - 1 by omega, show m.j - 1 + (m.size + 1) ≤ bhi by omega⟩
    · rw [if_neg hg]
      exact hm

/-- The rightward extension loops keep the match inside the window. -/
theorem extendR_bounds (jp : Bool) (a b : Str) (ahi bhi alo blo : Nat) :
    ∀ (fuel : Nat) (m : FLMatch),
      alo ≤ m.i ∧ m.i + m.size ≤ ahi ∧ blo ≤ m.j ∧ m.j + m.size ≤ bhi →
      alo ≤ (extendR jp a b ahi bhi fuel m).i ∧
        (extendR jp a b ahi bhi fuel m).i + (extendR jp a b ahi bhi fuel m).size ≤ ahi ∧
        blo ≤ (extendR jp a b ahi bhi fuel m).j ∧
        (extendR jp a b ahi bhi fuel m).j + (extendR jp a b ahi bhi fuel m).size ≤ bhi := by
  intro fuel
  induction fuel with
  | zero => intro m hm; simpa [extendR] using hm
  | succ fuel ih =>
    intro m hm
    rw [extendR]
    by_cases hg : m.i + m.size < ahi ∧ m.j + m.size < bhi ∧
        isjunk (getB b (m.j + m.size)) = jp ∧ getA a (m.i + m.size) = getB b (m.j + m.size)
    · rw [if_pos hg]
      obtain ⟨hg1, hg2, -, -⟩ := hg
      exact ih ⟨m.i, m.j, m.size + 1⟩
        ⟨show alo ≤ m.i from hm.1, show m.i + (m.size + 1) ≤ ahi by omega,
         show blo ≤ m.j from hm.2.2.1, show m.j + (m.size + 1) ≤ bhi by omega⟩
    · rw [if_neg hg]
      exact hm

/-- A leftward extension loop whose guard fails returns its input unchanged. -/
theorem extendL_stuck (jp : Bool) (a b : Str) (alo blo fuel : Nat) (m : FLMatch)
    (h : ¬(alo < m.i ∧ blo < m.j ∧ isjunk (getB b (m.j - 1)) = jp ∧
      getA a (m.i - 1) = getB b (m.j - 1))) :
    extendL jp a b alo blo fuel m = m := by
  cases fuel with
  | zero => rfl
  | succ fuel => rw [extendL, if_neg h]

/-- A rightward extension loop whose guard fails returns its input unchanged. -/
theorem extendR_stuck (jp : Bool) (a b : Str) (ahi bhi fuel : Nat) (m : FLMatch)
    (h : ¬(m.i + m.size < ahi ∧ m.j + m.size < bhi ∧
      isjunk (getB b (m.j + m.size)) = jp ∧ getA a (m.i + m.size) = getB b (m.j + m.size))) :
    extendR jp a b ahi bhi fuel m = m := by
  cases fuel with
  | zero => rfl
  | succ fuel => rw [extendR, if_neg h]

/-- `find_longest_match` returns a match inside the requested window. -/
theorem findLongestMatch_bounds (a b : Str) (alo ahi blo bhi : Nat)
    (h1 : alo ≤ ahi) (h2 : blo ≤ bhi) :
    alo ≤ (findLongestMatch a b alo ahi blo bhi).i ∧
      (findLongestMatch a b alo ahi blo bhi).i
        + (findLongestMatch a b alo ahi blo bhi).size ≤ ahi ∧
      blo ≤ (findLongestMatch a b alo ahi blo bhi).j ∧
      (findLongestMatch a b alo ahi blo bhi).j
        + (findLongestMatch a b alo ahi blo bhi).size ≤ bhi := by
  have hb0 := flmRows_pres a b alo blo bhi ahi
      (fun m => alo ≤ m.i ∧ m.i + m.size ≤ ahi ∧ blo ≤ m.j ∧ m.j + m.size ≤ bhi)
      (fun r j hal hrh hjm hbl hbh bst hP hlt => by
        have hk := dpK_le a b alo blo bhi r j
        exact ⟨show alo ≤ r + 1 - dpK a b alo blo bhi r j by omega,
               show r + 1 - dpK a b alo blo bhi r j + dpK a b alo blo bhi r j ≤ ahi by omega,
               show blo ≤ j + 1 - dpK a b alo blo bhi r j by omega,
               show j + 1 - dpK a b alo blo bhi r j + dpK a b alo blo bhi r j ≤ bhi by omega⟩)
      (ahi - alo) alo (fun _ => 0) ⟨alo, blo, 0⟩ (Nat.le_refl alo) (by omega)
      (fun x => by rw [if_neg (lt_irrefl alo)])
      ⟨Nat.le_refl alo, show alo + 0 ≤ ahi by omega,
       Nat.le_refl blo, show blo + 0 ≤ bhi by omega⟩
  simp only [findLongestMatch]
  exact extendR_bounds true a b ahi bhi alo blo _ _
    (extendL_bounds true a b alo blo ahi bhi _ _
      (extendR_bounds false a b ahi bhi alo blo _ _
        (extendL_bounds false a b alo blo ahi bhi _ _ hb0)))

/-- The total size of the matching blocks is bounded by both window widths. -/
theorem mbSum_le (a b : Str) :
    ∀ (fuel alo ahi blo bhi : Nat), alo ≤ ahi → blo ≤ bhi →
      mbSum a b fuel alo ahi blo bhi ≤ ahi - alo ∧
        mbSum a b fuel alo ahi blo bhi ≤ bhi - blo := by
  intro fuel
  induction fuel with
  | zero => intro alo ahi blo bhi h1 h2; simp [mbSum]
  | succ fuel ih =>
    intro alo ahi blo bhi h1 h2
    have hb := findLongestMatch_bounds a b alo ahi blo bhi h1 h2
    simp only [mbSum]
    set m := findLongestMatch a b alo ahi blo bhi with hmdef
    by_cases hz : m.size = 0
    · rw [if_pos hz]
      omega
    · rw [if_neg hz]
      have eL : (if alo < m.i ∧ blo < m.j then mbSum a b fuel alo m.i blo m.j else 0)
            ≤ m.i - alo ∧
          (if alo < m.i ∧ blo < m.j then mbSum a b fuel alo m.i blo m.j else 0)
            ≤ m.j - blo := by
        by_cases hL : alo < m.i ∧ blo < m.j
        · rw [if_pos hL]
          exact ih alo m.i blo m.j hL.1.le hL.2.le
        · rw [if_neg hL]
          omega
      have eR : (if m.i + m.size < ahi ∧ m.j + m.size < bhi then
              mbSum a b fuel (m.i + m.size) ahi (m.j + m.size) bhi else 0)
            ≤ ahi - (m.i + m.size) ∧
          (if m.i + m.size < ahi ∧ m.j + m.size < bhi then
              mbSum a b fuel (m.i + m.size) ahi (m.j + m.size) bhi else 0)
            ≤ bhi - (m.j + m.size) := by
        by_cases hR : m.i + m.size < ahi ∧ m.j + m.size < bhi
        · rw [if_pos hR]
          exact ih (m.i + m.size) ahi (m.j + m.size) bhi hR.1.le hR.2.le
        · rw [if_neg hR]
          omega
      omega

/-- `matches` never exceeds the length of either sequence. -/
theorem matchesTotal_le (a b : Str) :
    matchesTotal a b ≤ a.length ∧ matchesTotal a b ≤ b.length := by
  have h := mbSum_le a b (a.length + b.length + 1) 0 a.length 0 b.length
    (Nat.zero_le _) (Nat.zero_le _)
  simpa [matchesTotal] using h

/-- `SequenceMatcher.ratio()` never exceeds `1.0`. -/
theorem ratioOf_le_one (a b : Str) : ratioOf a b ≤ 1 := by
  simp only [ratioOf]
  by_cases h : a.length + b.length ≠ 0
  · rw [if_pos h]
    have hm := matchesTotal_le a b
    have hL : (0 : Rat) < (a.length : Rat) + (b.length : Rat) := by
      have hp : 0 < a.length + b.length := Nat.pos_of_ne_zero h
      exact_mod_cast hp
    rw [div_le_one hL]
    have h2 : 2 * matchesTotal a b ≤ a.length + b.length := by omega
    exact_mod_cast h2
  · rw [if_neg h]

/-- Once the running ratio is `1`, the aka loop never changes it: no
alternate's ratio can exceed `1`. -/
theorem applyAkas_no_gain (query : Str) :
    ∀ (akas : List Str), applyAkas query 1 akas = 1 := by
  intro akas
  induction akas with
  | nil => rfl
  | cons aka rest ih =>
    rw [applyAkas]
    rw [if_neg (not_lt.mpr (ratioOf_le_one (title aka) (title query)))]
    exact ih

/-- An in-range position reads back as `some` of its `getB` value. -/
theorem get?_of_lt {s : Str} {x : Nat} (h : x < s.length) :
    s.get? x = some (getB s x) := by
  unfold getB
  rw [List.getD_eq_getElem s _ h, List.get?_eq_getElem?, List.getElem?_eq_getElem h]

/-- On the self-comparison, occurrence lists are all-or-nothing per
character: a scanned key `j` of row `r` is itself a diagonal key, and the
row index `r` is a key of its own row. -/
theorem mem_rowJs_self_diag {s : Str} {r j : Nat} (h : j ∈ rowJs s s r) :
    j ∈ rowJs s s j ∧ r ∈ rowJs s s r := by
  obtain ⟨c, hgr, hbj⟩ := mem_rowJs_facts h
  obtain ⟨hjlen, hgbj, hjunk⟩ := mem_b2j_facts hbj
  have hsj : s.get? j = some c := by
    rw [get?_of_lt hjlen, hgbj]
  have hrowj : rowJs s s j = b2j s c := by
    unfold rowJs
    rw [hsj]
  have hrowr : rowJs s s r = b2j s c := by
    unfold rowJs
    rw [hgr]
  constructor
  · rw [hrowj]
    exact hbj
  · rw [hrowr]
    exact mem_b2j_closed hbj (lt_length_of_get? hgr) (getB_of_get? hgr)

/-- Column-to-diagonal comparison of the self dp values: a match ending at
`(r, j)` with `j ≤ r` is no longer than the diagonal match ending at
`(j, j)`. -/
theorem dpK_self_col (s : Str) (lo hi : Nat) :
    ∀ j r, j ≤ r → j < hi →
      dpK s s lo lo hi r j ≤ dpK s s lo lo hi j j := by
  intro j
  induction j using Nat.strong_induction_on with
  | _ j ih =>
    intro r hjr hjh
    by_cases hc : j ∈ rowJs s s r ∧ lo ≤ j ∧ j < hi ∧ lo ≤ r
    · obtain ⟨hm, hlj, -, hlr⟩ := hc
      have hdiag := (mem_rowJs_self_diag hm).1
      conv_lhs => rw [dpK_eq]
      conv_rhs => rw [dpK_eq]
      rw [if_pos (show j ∈ rowJs s s r ∧ lo ≤ j ∧ j < hi ∧ lo ≤ r from ⟨hm, hlj, hjh, hlr⟩)]
      rw [if_pos (show j ∈ rowJs s s j ∧ lo ≤ j ∧ j < hi ∧ lo ≤ j from ⟨hdiag, hlj, hjh, hlj⟩)]
      by_cases hrec : lo < r ∧ 0 < j
      · rw [if_pos hrec]
        by_cases hz : dpK s s lo lo hi (r - 1) (j - 1) = 0
        · rw [hz]
          omega
        · have hc' : (j - 1) ∈ rowJs s s (r - 1) ∧ lo ≤ j - 1 ∧ j - 1 < hi ∧ lo ≤ r - 1 := by
            by_contra hno
            exact hz (dpK_zero_of_not hno)
          obtain ⟨hm', hlj', hjh', hlr'⟩ := hc'
          have hih := ih (j - 1) (by omega) (r - 1) (by omega) (by omega)
          rw [if_pos (show lo < j ∧ 0 < j by omega)]
          omega
      · rw [if_neg hrec]
        omega
    · rw [dpK_zero_of_not hc]
      exact Nat.zero_le _

/-- Row-to-diagonal comparison of the self dp values: a match ending at
`(r, j)` with `r ≤ j` is no longer than the diagonal match ending at
`(r, r)`. -/
theorem dpK_self_row (s : Str) (lo hi : Nat) :
    ∀ r j, r ≤ j → r < hi →
      dpK s s lo lo hi r j ≤ dpK s s lo lo hi r r := by
  intro r
  induction r using Nat.strong_induction_on with
  | _ r ih =>
    intro j hrj hrh
    by_cases hc : j ∈ rowJs s s r ∧ lo ≤ j ∧ j < hi ∧ lo ≤ r
    · obtain ⟨hm, hlj, hjh, hlr⟩ := hc
      have hdiag := (mem_rowJs_self_diag hm).2
      conv_lhs => rw [dpK_eq]
      conv_rhs => rw [dpK_eq]
      rw [if_pos (show j ∈ rowJs s s r ∧ lo ≤ j ∧ j < hi ∧ lo ≤ r from ⟨hm, hlj, hjh, hlr⟩)]
      rw [if_pos (show r ∈ rowJs s s r ∧ lo ≤ r ∧ r < hi ∧ lo ≤ r from ⟨hdiag, hlr, hrh, hlr⟩)]
      by_cases hrec : lo < r ∧ 0 < j
      · rw [if_pos hrec]
        by_cases hz : dpK s s lo lo hi (r - 1) (j - 1) = 0
        · rw [hz]
          omega
        · have hc' : (j - 1) ∈ rowJs s s (r - 1) ∧ lo ≤ j - 1 ∧ j - 1 < hi ∧ lo ≤ r - 1 := by
            by_contra hno
            exact hz (dpK_zero_of_not hno)
          obtain ⟨hm', hlj', hjh', hlr'⟩ := hc'
          have hih := ih (r - 1) (by omega) (j - 1) (by omega) (by omega)
          rw [if_pos (show lo < r ∧ 0 < r by omega)]
          omega
      · rw [if_neg hrec]
        omega
    · rw [dpK_zero_of_not hc]
      exact Nat.zero_le _

/-- On the self-comparison with equal windows, one row of the dp loop keeps
the best match diagonal and inside the window, never shrinks it, and ends
with its size dominating the dp value at every in-window key of the row. -/
theorem flmInner_self (s : Str) (lo hi r : Nat) (j2len : Nat → Nat)
    (hlr : lo ≤ r) (hrh : r < hi)
    (h2 : ∀ x, j2len x = if lo < r then dpK s s lo lo hi (r - 1) x else 0) :
    ∀ (js : List Nat) (acc : Nat → Nat) (best : FLMatch),
      (∀ x ∈ js, x ∈ rowJs s s r) →
      js.Pairwise (· < ·) →
      (r ∉ js → dpK s s lo lo hi r r ≤ best.size) →
      (∀ t, lo ≤ t → t < hi → t < r → dpK s s lo lo hi t t ≤ best.size) →
      best.i = best.j ∧ lo ≤ best.i ∧ best.i + best.size ≤ hi →
      ((flmInner lo hi r j2len js acc best).2.i = (flmInner lo hi r j2len js acc best).2.j
          ∧ lo ≤ (flmInner lo hi r j2len js acc best).2.i
          ∧ (flmInner lo hi r j2len js acc best).2.i
              + (flmInner lo hi r j2len js acc best).2.size ≤ hi)
        ∧ best.size ≤ (flmInner lo hi r j2len js acc best).2.size
        ∧ ∀ x ∈ js, lo ≤ x → x < hi →
            dpK s s lo lo hi r x ≤ (flmInner lo hi r j2len js acc best).2.size := by
  intro js
  induction js with
  | nil =>
    intro acc best _ _ _ _ hP
    refine ⟨?_, ?_, ?_⟩
    · simpa [flmInner] using hP
    · simp [flmInner]
    · intro x hx
      exact absurd hx (List.not_mem_nil x)
  | cons j rest ih =>
    intro acc best hsub hpw hpre hrows hP
    have hlt : ∀ y ∈ rest, j < y := (List.pairwise_cons.mp hpw).1
    have hpw' : rest.Pairwise (· < ·) := (List.pairwise_cons.mp hpw).2
    by_cases hb1 : j < lo
    · rw [show flmInner lo hi r j2len (j :: rest) acc best
          = flmInner lo hi r j2len rest acc best by rw [flmInner, if_pos hb1]]
      have hres := ih acc best (fun y hy => hsub y (List.mem_cons_of_mem _ hy)) hpw'
        (fun hr => hpre (by
          intro hmem
          rcases List.mem_cons.mp hmem with h | h
          · omega
          · exact hr h)) hrows hP
      refine ⟨hres.1, hres.2.1, ?_⟩
      intro x hx hxlo hxhi
      rcases List.mem_cons.mp hx with h | h
      · omega
      · exact hres.2.2 x h hxlo hxhi
    · by_cases hb2 : hi ≤ j
      · rw [show flmInner lo hi r j2len (j :: rest) acc best = (acc, best) by
          rw [flmInner, if_neg hb1, if_pos hb2]]
        refine ⟨hP, Nat.le_refl _, ?_⟩
        intro x hx hxlo hxhi
        rcases List.mem_cons.mp hx with h | h
        · omega
        · have := hlt x h
          omega
      · have hjlo : lo ≤ j := by omega
        have hjhi : j < hi := by omega
        have hjm : j ∈ rowJs s s r := hsub j (List.mem_cons_self j rest)
        have hk := kOf_eq_dpK s s lo lo hi r j2len hlr h2 hjm hjlo hjhi
        rw [show flmInner lo hi r j2len (j :: rest) acc best
            = flmInner lo hi r j2len rest
                (fun y => if y = j then (if j = 0 then 0 else j2len (j - 1)) + 1 else acc y)
                (if best.size < (if j = 0 then 0 else j2len (j - 1)) + 1
                 then ⟨r + 1 - ((if j = 0 then 0 else j2len (j - 1)) + 1),
                       j + 1 - ((if j = 0 then 0 else j2len (j - 1)) + 1),
                       (if j = 0 then 0 else j2len (j - 1)) + 1⟩
                 else best) by
          rw [flmInner, if_neg hb1, if_neg hb2]]
        by_cases hup : best.size < (if j = 0 then 0 else j2len (j - 1)) + 1
        · rw [if_pos hup]
          have hdiag : j = r := by
            by_contra hne
            rcases Nat.lt_or_ge j r with hlt1 | hge
            · have hF := dpK_self_col s lo hi j r (Nat.le_of_lt hlt1) hjhi
              have hRow := hrows j hjlo hjhi hlt1
              omega
            · have hlt2 : r < j := by omega
              have hF := dpK_self_row s lo hi r j (Nat.le_of_lt hlt2) hrh
              have hPre : dpK s s lo lo hi r r ≤ best.size := by
                apply hpre
                intro hmem
                rcases List.mem_cons.mp hmem with h | h
                · omega
                · have := hlt r h
                  omega
              omega
          subst hdiag
          have hdp := dpK_le s s lo lo hi j j
          have hres := ih
            (fun y => if y = j then (if j = 0 then 0 else j2len (j - 1)) + 1 else acc y)
            ⟨j + 1 - ((if j = 0 then 0 else j2len (j - 1)) + 1),
             j + 1 - ((if j = 0 then 0 else j2len (j - 1)) + 1),
             (if j = 0 then 0 else j2len (j - 1)) + 1⟩
            (fun y hy => hsub y (List.mem_cons_of_mem _ hy)) hpw'
            (fun _ => by
              show dpK s s lo lo hi j j ≤ (if j = 0 then 0 else j2len (j - 1)) + 1
              omega)
            (fun t h1 h2' h3 => by
              show dpK s s lo lo hi t t ≤ (if j = 0 then 0 else j2len (j - 1)) + 1
              have := hrows t h1 h2' h3
              omega)
            ⟨rfl,
             by
              show lo ≤ j + 1 - ((if j = 0 then 0 else j2len (j - 1)) + 1)
              omega,
             by
              show j + 1 - ((if j = 0 then 0 else j2len (j - 1)) + 1)
                  + ((if j = 0 then 0 else j2len (j - 1)) + 1) ≤ hi
              omega⟩
          refine ⟨hres.1, ?_, ?_⟩
          · exact le_trans (Nat.le_of_lt hup) hres.2.1
          · intro x hx hxlo hxhi
            rcases List.mem_cons.mp hx with h | h
            · subst h
              calc dpK s s lo lo hi x x
                  = (if x = 0 then 0 else j2len (x - 1)) + 1 := hk.symm
                _ ≤ _ := hres.2.1
            · exact hres.2.2 x h hxlo hxhi
        · rw [if_neg hup]
          rw [Nat.not_lt] at hup
          have hres := ih
            (fun y => if y = j then (if j = 0 then 0 else j2len (j - 1)) + 1 else acc y)
            best (fun y hy => hsub y (List.mem_cons_of_mem _ hy)) hpw'
            (fun hr => by
              by_cases hrj : r = j
              · subst hrj
                omega
              · exact hpre (by
                  intro hmem
                  rcases List.mem_cons.mp hmem with h | h
                  · exact hrj h
                  · exact hr h))
            hrows hP
          refine ⟨hres.1, hres.2.1, ?_⟩
          intro x hx hxlo hxhi
          rcases List.mem_cons.mp hx with h | h
          · subst h
            have hchain := hres.2.1
            omega
          · exact hres.2.2 x h hxlo hxhi

/-- On the self-comparison with equal windows, the dp phase of
`find_longest_match` keeps the best match diagonal and inside the window
and never shrinks it. -/
theorem flmRows_self (s : Str) (lo hi : Nat) :
    ∀ (cnt r : Nat) (j2len : Nat → Nat) (best : FLMatch),
      lo ≤ r → r + cnt ≤ hi →
      (∀ x, j2len x = if lo < r then dpK s s lo lo hi (r - 1) x else 0) →
      (∀ t, lo ≤ t → t < hi → t < r → dpK s s lo lo hi t t ≤ best.size) →
      best.i = best.j ∧ lo ≤ best.i ∧ best.i + best.size ≤ hi →
      ((flmRows s s lo hi (List.range' r cnt) j2len best).i
          = (flmRows s s lo hi (List.range' r cnt) j2len best).j
        ∧ lo ≤ (flmRows s s lo hi (List.range' r cnt) j2len best).i
        ∧ (flmRows s s lo hi (List.range' r cnt) j2len best).i
            + (flmRows s s lo hi (List.range' r cnt) j2len best).size ≤ hi)
      ∧ best.size ≤ (flmRows s s lo hi (List.range' r cnt) j2len best).size := by
  intro cnt
  induction cnt with
  | zero =>
    intro r j2len best _ _ _ _ hP
    refine ⟨?_, ?_⟩
    · simpa [flmRows] using hP
    · simp [flmRows]
  | succ cnt ih =>
    intro r j2len best hlr hcnt h2 hrows hP
    rw [List.range'_succ]
    rw [show flmRows s s lo hi (r :: List.range' (r + 1) cnt) j2len best
        = flmRows s s lo hi (List.range' (r + 1) cnt)
            (flmInner lo hi r j2len (rowJs s s r) (fun _ => 0) best).1
            (flmInner lo hi r j2len (rowJs s s r) (fun _ => 0) best).2 from rfl]
    have hrh : r < hi := by omega
    have hin := flmInner_self s lo hi r j2len hlr hrh h2 (rowJs s s r) (fun _ => 0) best
      (fun x hx => hx) (rowJs_sorted s s r)
      (fun hr => by
        rw [dpK_zero_of_not (fun hc => hr hc.1)]
        exact Nat.zero_le _)
      hrows hP
    have hres := ih (r + 1)
      (flmInner lo hi r j2len (rowJs s s r) (fun _ => 0) best).1
      (flmInner lo hi r j2len (rowJs s s r) (fun _ => 0) best).2
      (by omega) (by omega)
      (by
        intro x
        rw [flmInner_fst lo hi r j2len (rowJs s s r) (fun _ => 0) best (rowJs_sorted s s r) x]
        by_cases hc : x ∈ rowJs s s r ∧ lo ≤ x ∧ x < hi
        · rw [if_pos hc, if_pos (show lo < r + 1 by omega), Nat.add_sub_cancel]
          exact kOf_eq_dpK s s lo lo hi r j2len hlr h2 hc.1 hc.2.1 hc.2.2
        · rw [if_neg hc, if_pos (show lo < r + 1 by omega), Nat.add_sub_cancel]
          rw [dpK_zero_of_not (fun hfull => hc ⟨hfull.1, hfull.2.1, hfull.2.2.1⟩)])
      (by
        intro t h1t h2t h3t
        rcases Nat.lt_or_ge t r with hlt | hge
        · exact le_trans (hrows t h1t h2t hlt) hin.2.1
        · have ht : t = r := by omega
          subst ht
          by_cases hmem : t ∈ rowJs s s t
          · exact hin.2.2 t hmem h1t h2t
          · rw [dpK_zero_of_not (fun hc => hmem hc.1)]
            exact Nat.zero_le _)
      hin.1
    exact ⟨hres.1, le_trans hin.2.1 hres.2⟩

/-- On the self-comparison, the leftward extension loops keep the match
diagonal and in bounds, and never shrink it. -/
theorem extendL_self_pres (jp : Bool) (s : Str) (lo hi : Nat) :
    ∀ (fuel : Nat) (m : FLMatch),
      m.i = m.j ∧ lo ≤ m.i ∧ m.i + m.size ≤ hi →
      (extendL jp s s lo lo fuel m).i = (extendL jp s s lo lo fuel m).j
        ∧ lo ≤ (extendL jp s s lo lo fuel m).i
        ∧ (extendL jp s s lo lo fuel m).i + (extendL jp s s lo lo fuel m).size ≤ hi
        ∧ m.size ≤ (extendL jp s s lo lo fuel m).size := by
  intro fuel
  induction fuel with
  | zero =>
    intro m hm
    simp only [extendL]
    exact ⟨hm.1, hm.2.1, hm.2.2, Nat.le_refl _⟩
  | succ fuel ih =>
    intro m hm
    rw [extendL]
    by_cases hg : lo < m.i ∧ lo < m.j ∧ isjunk (getB s (m.j - 1)) = jp ∧
        getA s (m.i - 1) = getB s (m.j - 1)
    · rw [if_pos hg]
      obtain ⟨hd, hbl, hbh⟩ := hm
      have hres := ih ⟨m.i - 1, m.j - 1, m.size + 1⟩
        ⟨show m.i - 1 = m.j - 1 by omega, show lo ≤ m.i - 1 by omega,
         show m.i - 1 + (m.size + 1) ≤ hi by omega⟩
      refine ⟨hres.1, hres.2.1, hres.2.2.1, ?_⟩
      exact le_trans (show m.size ≤ (⟨m.i - 1, m.j - 1, m.size + 1⟩ : FLMatch).size from
        Nat.le_succ _) hres.2.2.2
    · rw [if_neg hg]
      exact ⟨hm.1, hm.2.1, hm.2.2, Nat.le_refl _⟩

/-- On the self-comparison, the rightward extension loops keep the match
diagonal and in bounds, and never shrink it. -/
theorem extendR_self_pres (jp : Bool) (s : Str) (lo hi : Nat) :
    ∀ (fuel : Nat) (m : FLMatch),
      m.i = m.j ∧ lo ≤ m.i ∧ m.i + m.size ≤ hi →
      (extendR jp s s hi hi fuel m).i = (extendR jp s s hi hi fuel m).j
        ∧ lo ≤ (extendR jp s s hi hi fuel m).i
        ∧ (extendR jp s s hi hi fuel m).i + (extendR jp s s hi hi fuel m).size ≤ hi
        ∧ m.size ≤ (extendR jp s s hi hi fuel m).size := by
  intro fuel
  induction fuel with
  | zero =>
    intro m hm
    simp only [extendR]
    exact ⟨hm.1, hm.2.1, hm.2.2, Nat.le_refl _⟩
  | succ fuel ih =>
    intro m hm
    rw [extendR]
    by_cases hg : m.i + m.size < hi ∧ m.j + m.size < hi ∧
        isjunk (getB s (m.j + m.size)) = jp ∧ getA s (m.i + m.size) = getB s (m.j + m.size)
    · rw [if_pos hg]
      obtain ⟨hd, hbl, hbh⟩ := hm
      have hres := ih ⟨m.i, m.j, m.size + 1⟩
        ⟨show m.i = m.j from hd, show lo ≤ m.i from hbl,
         show m.i + (m.size + 1) ≤ hi by omega⟩
      refine ⟨hres.1, hres.2.1, hres.2.2.1, ?_⟩
      exact le_trans (show m.size ≤ (⟨m.i, m.j, m.size + 1⟩ : FLMatch).size from
        Nat.le_succ _) hres.2.2.2
    · rw [if_neg hg]
      exact ⟨hm.1, hm.2.1, hm.2.2, Nat.le_refl _⟩

/-- A rightward extension loop starting from the empty match at the left
edge of a nonempty window, with the matching junk phase, makes at least one
step. -/
theorem extendR_one_step (jp : Bool) (s : Str) (lo hi : Nat) (hlh : lo < hi)
    (hj : isjunk (getB s lo) = jp) (hc : getA s lo = getB s lo) :
    ∀ fuel, 0 < fuel → 1 ≤ (extendR jp s s hi hi fuel (⟨lo, lo, 0⟩ : FLMatch)).size := by
  intro fuel hf
  obtain ⟨f, rfl⟩ : ∃ f, fuel = f + 1 := ⟨fuel - 1, by omega⟩
  simp only [extendR]
  have hgrd : lo + 0 < hi ∧ lo + 0 < hi ∧ isjunk (getB s (lo + 0)) = jp ∧
      getA s (lo + 0) = getB s (lo + 0) := ⟨by omega, by omega, hj, hc⟩
  rw [if_pos hgrd]
  exact (extendR_self_pres jp s lo hi f ⟨lo, lo, 0 + 1⟩
    ⟨rfl, Nat.le_refl _, show lo + (0 + 1) ≤ hi by omega⟩).2.2.2

/-- On the self-comparison of a nonempty window of `s`, `find_longest_match`
returns a diagonal in-window match of size at least 1. -/
theorem findLongestMatch_self (s : Str) (lo hi : Nat) (hlh : lo < hi) (hhl : hi ≤ s.length) :
    (findLongestMatch s s lo hi lo hi).i = (findLongestMatch s s lo hi lo hi).j
      ∧ lo ≤ (findLongestMatch s s lo hi lo hi).i
      ∧ (findLongestMatch s s lo hi lo hi).i + (findLongestMatch s s lo hi lo hi).size ≤ hi
      ∧ 1 ≤ (findLongestMatch s s lo hi lo hi).size := by
  have hb0 := flmRows_self s lo hi (hi - lo) lo (fun _ => 0) ⟨lo, lo, 0⟩
    (Nat.le_refl lo) (by omega)
    (fun x => by rw [if_neg (lt_irrefl lo)])
    (fun t h1 h2 h3 => absurd h3 (by omega))
    ⟨rfl, Nat.le_refl lo, show lo + 0 ≤ hi by omega⟩
  have hz := flmRows_pres s s lo lo hi hi
    (fun m => m = ⟨lo, lo, 0⟩ ∨ 1 ≤ m.size)
    (fun r j hal hrh hjm hbl hbh bst hPb hlt =>
      Or.inr (show 1 ≤ dpK s s lo lo hi r j by omega))
    (hi - lo) lo (fun _ => 0) ⟨lo, lo, 0⟩ (Nat.le_refl lo) (by omega)
    (fun x => by rw [if_neg (lt_irrefl lo)])
    (Or.inl rfl)
  simp only [findLongestMatch]
  set b0 := flmRows s s lo hi (List.range' lo (hi - lo)) (fun _ => 0)
    (⟨lo, lo, 0⟩ : FLMatch) with hb0d
  set m1 := extendL false s s lo lo b0.i b0 with hm1d
  set m2 := extendR false s s hi hi (hi - m1.size) m1 with hm2d
  set m3 := extendL true s s lo lo m2.i m2 with hm3d
  set m4 := extendR true s s hi hi (hi - m3.size) m3 with hm4d
  have h1 := extendL_self_pres false s lo hi b0.i b0 hb0.1
  rw [← hm1d] at h1
  have h2 := extendR_self_pres false s lo hi (hi - m1.size) m1 ⟨h1.1, h1.2.1, h1.2.2.1⟩
  rw [← hm2d] at h2
  have h3 := extendL_self_pres true s lo hi m2.i m2 ⟨h2.1, h2.2.1, h2.2.2.1⟩
  rw [← hm3d] at h3
  have h4 := extendR_self_pres true s lo hi (hi - m3.size) m3 ⟨h3.1, h3.2.1, h3.2.2.1⟩
  rw [← hm4d] at h4
  refine ⟨h4.1, h4.2.1, h4.2.2.1, ?_⟩
  rcases hz with hz0 | hz1
  · -- the dp phase left the initial empty match: an extension must fire
    have hm1 : m1 = b0 := by
      rw [hm1d, hz0]
      exact extendL_stuck false s s lo lo _ _ (fun hg => lt_irrefl lo hg.1)
    have hchar : getA s lo = getB s lo := getA_eq_getB (by omega)
    by_cases hjf : isjunk (getB s lo) = false
    · have h12 : 1 ≤ m2.size := by
        rw [hm2d, hm1, hz0]
        exact extendR_one_step false s lo hi hlh hjf hchar _
          (show 0 < hi - 0 by omega)
      have := h3.2.2.2
      have := h4.2.2.2
      omega
    · have hjt : isjunk (getB s lo) = true := by
        revert hjf
        cases isjunk (getB s lo) <;> simp
      have hm2 : m2 = b0 := by
        rw [hm2d, hm1, hz0]
        apply extendR_stuck
        intro hg
        have h' : isjunk (getB s lo) = false := hg.2.2.1
        rw [hjt] at h'
        cases h'
      have hm3 : m3 = b0 := by
        rw [hm3d, hm2, hz0]
        exact extendL_stuck true s s lo lo _ _ (fun hg => lt_irrefl lo hg.1)
      have h14 : 1 ≤ m4.size := by
        rw [hm4d, hm3, hz0]
        exact extendR_one_step true s lo hi hlh hjt hchar _
          (show 0 < hi - 0 by omega)
      exact h14
  · have hs0 : (⟨lo, lo, 0⟩ : FLMatch).size ≤ b0.size := hb0.2
    have := h1.2.2.2
    have := h2.2.2.2
    have := h3.2.2.2
    have := h4.2.2.2
    omega

/-- On the self-comparison, the matching blocks of an equal-range
subproblem cover the whole window. -/
theorem mbSum_self (s : Str) :
    ∀ (fuel lo hi : Nat), hi ≤ s.length → hi - lo ≤ fuel →
      mbSum s s fuel lo hi lo hi = hi - lo := by
  intro fuel
  induction fuel with
  | zero =>
    intro lo hi h1 h2
    simp only [mbSum]
    omega
  | succ fuel ih =>
    intro lo hi hhl hfuel
    rcases Nat.lt_or_ge lo hi with hlh | hge
    · have hm := findLongestMatch_self s lo hi hlh hhl
      simp only [mbSum]
      set m := findLongestMatch s s lo hi lo hi with hmd
      obtain ⟨hd, hlo, hbd, hsz⟩ := hm
      rw [if_neg (show ¬(m.size = 0) by omega)]
      rw [← hd]
      have eL : (if lo < m.i ∧ lo < m.i then mbSum s s fuel lo m.i lo m.i else 0)
          = m.i - lo := by
        by_cases hL : lo < m.i ∧ lo < m.i
        · rw [if_pos hL, ih lo m.i (by omega) (by omega)]
        · rw [if_neg hL]
          omega
      have eR : (if m.i + m.size < hi ∧ m.i + m.size < hi then
            mbSum s s fuel (m.i + m.size) hi (m.i + m.size) hi else 0)
          = hi - (m.i + m.size) := by
        by_cases hR : m.i + m.size < hi ∧ m.i + m.size < hi
        · rw [if_pos hR, ih (m.i + m.size) hi hhl (by omega)]
        · rw [if_neg hR]
          omega
      rw [eL, eR]
      omega
    · -- empty window: the returned match is the initial empty one
      have hb0 : flmRows s s lo hi (List.range' lo (hi - lo)) (fun _ => 0)
          (⟨lo, lo, 0⟩ : FLMatch) = ⟨lo, lo, 0⟩ := by
        rw [show hi - lo = 0 by omega]
        rfl
      have hflm : findLongestMatch s s lo hi lo hi = ⟨lo, lo, 0⟩ := by
        simp only [findLongestMatch]
        rw [hb0]
        rw [extendL_stuck false s s lo lo _ _ (fun hg => lt_irrefl lo hg.1)]
        rw [extendR_stuck false s s hi hi _ _
          (fun hg => absurd (show lo + 0 < hi from hg.1) (by omega))]
        rw [extendL_stuck true s s lo lo _ _ (fun hg => lt_irrefl lo hg.1)]
        rw [extendR_stuck true s s hi hi _ _
          (fun hg => absurd (show lo + 0 < hi from hg.1) (by omega))]
      simp only [mbSum]
      rw [hflm]
      rw [if_pos (show (⟨lo, lo, 0⟩ : FLMatch).size = 0 from rfl)]
      omega

/-- `matches` of a string against itself is its full length. -/
theorem matchesTotal_self (s : Str) : matchesTotal s s = s.length := by
  have h := mbSum_self s (s.length + s.length + 1) 0 s.length (Nat.le_refl _) (by omega)
  simpa [matchesTotal] using h

/-- `SequenceMatcher.ratio()` of a string against itself is exactly `1`. -/
theorem ratioOf_self (s : Str) : ratioOf s s = 1 := by
  simp only [ratioOf, matchesTotal_self]
  by_cases h : s.length + s.length ≠ 0
  · rw [if_pos h]
    have hp : 0 < s.length + s.length := Nat.pos_of_ne_zero h
    have h1 : (0 : Rat) < (s.length : Rat) + (s.length : Rat) := by exact_mod_cast hp
    rw [div_eq_one_iff_eq (ne_of_gt h1)]
    ring
  · rw [if_neg h]

/-- C5: a candidate at source position 0 whose titled name is identical to
the titled query name is stored with score `ratio * position_ratio(0)
= 1 * 1.1 = 11/10` — not `1.0` as the spec claims, since
`position_ratio(0) = (first_weight - 1)/(0 + 1) + 1 = 1.1`. -/
theorem scorer_identical_top (name : Str) (row : Row) (movie : Movie)
    (hp : processRow name 0 row = some movie)
    (hid : title row.link_text = title name) :
    movie.matchVal = 11 / 10 := by
  rcases hys : rowYear (findParens row.result_text) with ⟨yr, sk⟩
  simp only [processRow, hys] at hp
  cases sk with
  | true => simp at hp
  | false =>
    rw [if_neg (show ¬(false = true) by decide)] at hp
    injection hp with h
    rw [← h]
    show rowScore0 name row * posWeight 0 = 11 / 10
    simp only [rowScore0]
    rw [hid, ratioOf_self, applyAkas_no_gain]
    rw [posWeight]
    norm_num [first_weight]

/-- C5 witness: the concrete row `c5row` at position 0 with query `"Up"`
is stored with score `11/10`. -/
theorem scorer_identical_top_witness : c5movie.matchVal = 11 / 10 :=
  scorer_identical_top ("Up".toList) c5row c5movie rfl rfl

/-- C5 counterexample to the spec's figure: the stored score of the
position-0 identical candidate `c5row` is not `1.0` (it is `11/10`). -/
theorem scorer_identical_top_cex :
    processRow ("Up".toList) 0 c5row = some c5movie ∧
      title c5row.link_text = title ("Up".toList) ∧
      c5movie.matchVal ≠ 1 := by
  refine ⟨rfl, rfl, ?_⟩
  have h1 : c5movie.matchVal
      = ratioOf (title ("Up".toList)) (title ("Up".toList)) * posWeight 0 := rfl
  rw [h1, ratioOf_self, posWeight]
  norm_num [first_weight]
